import Mathlib

/-!
# quiet_hn: the concurrent fetch-and-reassemble pipeline of `getTopStories`

A shallow embedding of `main.go`.

* A Go `string` is a sequence of bytes (`GoString`).  The text fields of an item are texts
  (Lean `String`s), which Go holds in UTF-8; the functions of the Go standard library
  (`strings.TrimPrefix`, `net/url.Parse`, `(*URL).Hostname`) work on these bytes, and `Host`,
  which they compute, is a `GoString`.
* A Go `error` value is `Option Error`: `none` is `nil`.
* The remote service (`hn.Client`) is a record of answers: what `TopItems` returns and what
  each `GetItem` call returns.
* The goroutines and the unbuffered channel are a step relation: every launched task holds
  the list of sends it still has to perform, and one receive of the coordinator takes the
  first pending send of one task.  The order of arrival is an explicit argument.
-/

namespace QuietHN

/-- A Go `error` that is not nil, by its message. -/
abbrev Error := String

/-! ## Go strings -/

/-- A Go `string` value: a sequence of bytes, each below 256. -/
abbrev GoString := List Nat

/-- The UTF-8 encoding of one character. -/
def utf8 (c : Char) : GoString :=
  if c.toNat < 128 then [c.toNat]
  else if c.toNat < 2048 then [192 + c.toNat / 64, 128 + c.toNat % 64]
  else if c.toNat < 65536 then
    [224 + c.toNat / 4096, 128 + c.toNat / 64 % 64, 128 + c.toNat % 64]
  else
    [240 + c.toNat / 262144, 128 + c.toNat / 4096 % 64, 128 + c.toNat / 64 % 64,
      128 + c.toNat % 64]

/-- The UTF-8 bytes of a list of characters. -/
def bytesL : List Char → GoString
  | [] => []
  | c :: s => utf8 c ++ bytesL s

/-- The bytes of a text: the Go `string` that holds it. -/
def bytes (s : String) : GoString := bytesL s.data

/-! ## Strings (Go package `strings`) -/

namespace strings

/-- Go `strings.HasPrefix`: does `s` start with `pre`. -/
def HasPrefixL : GoString → GoString → Bool
  | _, [] => true
  | [], _ :: _ => false
  | c :: s, p :: pre => c == p && HasPrefixL s pre

/-- Go `strings.TrimPrefix`: `s` without the leading `pre` when `s` starts with it, `s`
itself otherwise.  At most one occurrence is removed. -/
def TrimPrefixL (s pre : GoString) : GoString :=
  if HasPrefixL s pre then s.drop pre.length else s

/-- Go `strings.Cut` with a one-byte separator: the text before the first `sep` and the text
after it; when `sep` does not occur, all of `s` and the empty text. -/
def CutL (sep : Nat) : GoString → GoString × GoString
  | [] => ([], [])
  | c :: s => if c == sep then ([], s) else (c :: (CutL sep s).1, (CutL sep s).2)

/-- Go `strings.Index` with a one-byte pattern, split form: when `sep` occurs, the text
before its first occurrence and the text from that occurrence on. -/
def splitFirstL (sep : Nat) : GoString → Option (GoString × GoString)
  | [] => none
  | c :: s =>
    if c == sep then some ([], c :: s)
    else match splitFirstL sep s with
      | some (a, b) => some (c :: a, b)
      | none => none

/-- Go `strings.LastIndex` with a one-byte pattern, split form: when `sep` occurs, the text
before its last occurrence and the text from that occurrence on. -/
def splitLastL (sep : Nat) : GoString → Option (GoString × GoString)
  | [] => none
  | c :: s =>
    match splitLastL sep s with
    | some (a, b) => some (c :: a, b)
    | none => if c == sep then some ([], c :: s) else none

/-- Go `strings.Index(s, "%25")`, split form: the text before the first `%25` and the text
from it on. -/
def splitPct25 : GoString → Option (GoString × GoString)
  | [] => none
  | c :: s =>
    if HasPrefixL (c :: s) [37, 50, 53] then some ([], c :: s)
    else match splitPct25 s with
      | some (a, b) => some (c :: a, b)
      | none => none

end strings

/-! ## The item service (Go package `hn`, imported by `main.go`) -/

namespace hn

/-- Modelled from the spec: the declaration of the type `hn.Item`, which lives in the
imported package `hn`.  §3 RawItem: "identifier, type tag (string), target URL (possibly
empty), plus display fields (title, score, etc.)".  `main.go` reads the fields `Type` and
`URL`; `Type` is a Lean keyword, hence `Type_`. -/
structure Item where
  ID : Int
  Type_ : String
  URL : String
  Title : String
  Score : Int
  deriving DecidableEq, Repr

/-- The zero value `hn.Item{}`. -/
def Item.zero : Item := ⟨0, "", "", "", 0⟩

/-- The answers of the remote service to one run of `getTopStories`.
`TopItems` is the pair `([]int, error)` returned by `client.TopItems()`.
`GetItem index id` is the pair `(hn.Item, error)` returned by the call `client.GetItem(id)`
made by the task of rank `index`; Go returns an item value also when the error is not nil. -/
structure Client where
  TopItems : List Int × Option Error
  GetItem : Nat → Int → Item × Option Error

end hn

/-! ## Byte classes -/

namespace ascii

/-- An ASCII letter: `'a' <= c && c <= 'z' || 'A' <= c && c <= 'Z'`. -/
def isAlpha (c : Nat) : Bool :=
  ('a'.toNat ≤ c && c ≤ 'z'.toNat) || ('A'.toNat ≤ c && c ≤ 'Z'.toNat)

/-- An ASCII digit: `'0' <= c && c <= '9'`. -/
def isDigit (c : Nat) : Bool := '0'.toNat ≤ c && c ≤ '9'.toNat

/-- Go `ishex`. -/
def ishex (c : Nat) : Bool :=
  isDigit c || ('a'.toNat ≤ c && c ≤ 'f'.toNat) || ('A'.toNat ≤ c && c ≤ 'F'.toNat)

/-- Go `unhex`. -/
def unhex (c : Nat) : Nat :=
  if isDigit c then c - '0'.toNat
  else if 'a'.toNat ≤ c && c ≤ 'f'.toNat then c - 'a'.toNat + 10
  else if 'A'.toNat ≤ c && c ≤ 'F'.toNat then c - 'A'.toNat + 10
  else 0

end ascii

/-! ## IP addresses (Go package `net/netip`), as far as `net/url` asks: is this text an IPv6
address -/

namespace netip

/-- Go `parseIPv4Fields`, success or failure: the loop over the text, with `first` for
`i == 0`, `prevDot` for `s[i-1] == '.'`, and the variables `val`, `pos`, `digLen`. -/
def parseIPv4FieldsFrom : GoString → Bool → Bool → Nat → Nat → Nat → Bool
  | [], _, _, _, pos, _ => !(decide (pos < 3))
  | c :: s, first, prevDot, val, pos, digLen =>
    if ascii.isDigit c then
      if digLen == 1 && val == 0 then false
      else if val * 10 + (c - '0'.toNat) > 255 then false
      else parseIPv4FieldsFrom s false false (val * 10 + (c - '0'.toNat)) pos (digLen + 1)
    else if c == '.'.toNat then
      if first || s.isEmpty || prevDot then false
      else if pos == 3 then false
      else parseIPv4FieldsFrom s false true 0 (pos + 1) 0
    else false

/-- Go `parseIPv4Fields`: does the text hold four decimal octets. -/
def parseIPv4Fields (s : GoString) : Bool :=
  parseIPv4FieldsFrom s true false 0 0 0

/-- The end of Go `parseIPv6`, after its loop: the whole text must be used; fewer than 16
bytes need a `::` to expand, 16 bytes may not have one. -/
def parseIPv6End (i : Nat) (ellipsis : Bool) (s : GoString) : Bool :=
  s.isEmpty && (if i < 16 then ellipsis else !ellipsis)

/-- The loop `for i < 16` of Go `parseIPv6`, with at most `fuel` iterations (every iteration
that does not leave the loop fills two bytes): `i` bytes are filled, `ellipsis` tells whether
a `::` was seen, `s` is the text left. -/
def parseIPv6Loop : Nat → Nat → Bool → GoString → Bool
  | 0, i, ellipsis, s => parseIPv6End i ellipsis s
  | fuel + 1, i, ellipsis, s =>
    if !(decide (i < 16)) then parseIPv6End i ellipsis s
    else if (s.takeWhile ascii.ishex).length > 4 then false
    else if (s.takeWhile ascii.ishex).isEmpty then false
    else
      match s.dropWhile ascii.ishex with
      | [] => parseIPv6End (i + 2) ellipsis []
      | c :: rest1 =>
        if c == '.'.toNat then
          if !ellipsis && i != 12 then false
          else if i + 4 > 16 then false
          else if !parseIPv4Fields s then false
          else parseIPv6End (i + 4) ellipsis []
        else if c != ':'.toNat then false
        else
          match rest1 with
          | [] => false
          | c2 :: rest2 =>
            if c2 == ':'.toNat then
              if ellipsis then false
              else if rest2.isEmpty then parseIPv6End (i + 2) true []
              else parseIPv6Loop fuel (i + 2) true rest2
            else parseIPv6Loop fuel (i + 2) ellipsis rest1

/-- Go `parseIPv6`, success or failure: a zone after `%` must not be empty; a leading `::`
is taken first; then the loop. -/
def parseIPv6 (s : GoString) : Bool :=
  match strings.splitFirstL '%'.toNat s with
  | some (addr, pctZone) =>
    if (pctZone.drop 1).isEmpty then false
    else if strings.HasPrefixL addr [':'.toNat, ':'.toNat] then
      if (addr.drop 2).isEmpty then true else parseIPv6Loop 8 0 true (addr.drop 2)
    else parseIPv6Loop 8 0 false addr
  | none =>
    if strings.HasPrefixL s [':'.toNat, ':'.toNat] then
      if (s.drop 2).isEmpty then true else parseIPv6Loop 8 0 true (s.drop 2)
    else parseIPv6Loop 8 0 false s

/-- Go `netip.ParseAddr(s)` succeeds with an address that is not `Is4()`: the first of `.`,
`:` and `%` in `s` decides how `s` is read; only `:` leads to `parseIPv6`. -/
def ParseAddrIs6 (s : GoString) : Bool :=
  match s.find? fun c => c == '.'.toNat || c == ':'.toNat || c == '%'.toNat with
  | some c => if c == ':'.toNat then parseIPv6 s else false
  | none => false

end netip

/-! ## URLs (Go package `net/url`), as far as `Hostname` depends on them -/

namespace url

open ascii

/-- The fields of `url.URL` that `Parse` fills and `Hostname` or the error paths depend on. -/
structure URL where
  Scheme : GoString
  Opaque : GoString
  Host : GoString
  Path : GoString
  RawQuery : GoString
  Fragment : GoString
  deriving DecidableEq, Repr

/-- The escaping modes of `net/url` that `Parse` uses. -/
inductive encoding
  | encodePath
  | encodeHost
  | encodeZone
  | encodeUserPassword
  | encodeFragment
  deriving DecidableEq, Repr

/-- Go `shouldEscape(c, encodeHost)`: every byte is escaped in a host except letters,
digits, the sub-delimiters `! $ & ' ( ) * + , ; =`, the bytes `: [ ] < > "` and the marks
`- _ . ~`. -/
def shouldEscapeHost (c : Nat) : Bool :=
  if isAlpha c || isDigit c then false
  else if c ∈ bytes "!$&()*+,;=:[]<>" || c == 39 || c == 34 then false
  else if c ∈ bytes "-_.~" then false
  else true

/-- Go `stringContainsCTLByte`: a byte below the space, or 0x7f. -/
def stringContainsCTLByte (s : GoString) : Bool :=
  s.any fun c => decide (c < 32) || c == 127

/-- Go `unescape`: checks the `%XX` escapes (and, in a host, the bytes) and decodes every
escape to its byte.  One pass; Go checks in a first pass and decodes in a second. -/
def unescape (mode : encoding) : GoString → Except Error GoString
  | [] => .ok []
  | c :: rest =>
    if c == '%'.toNat then
      match rest with
      | a :: b :: rest2 =>
        if !(ishex a && ishex b) then .error "invalid URL escape"
        else if mode == .encodeHost && unhex a < 8 && !(a == '2'.toNat && b == '5'.toNat) then
          .error "invalid URL escape"
        else if mode == .encodeZone && !(a == '2'.toNat && b == '5'.toNat)
            && unhex a * 16 + unhex b != ' '.toNat
            && shouldEscapeHost (unhex a * 16 + unhex b) then
          .error "invalid URL escape"
        else
          match unescape mode rest2 with
          | .ok r => .ok ((unhex a * 16 + unhex b) :: r)
          | .error e => .error e
      | _ => .error "invalid URL escape"
    else if (mode == .encodeHost || mode == .encodeZone) && decide (c < 128)
        && shouldEscapeHost c then
      .error "invalid character in host name"
    else
      match unescape mode rest with
      | .ok r => .ok (c :: r)
      | .error e => .error e

/-- The loop of Go `getScheme` at position `i`, with `s` the text from `i` on. -/
def getSchemeFrom (rawURL : GoString) : Nat → GoString → Except Error (GoString × GoString)
  | _, [] => .ok ([], rawURL)
  | i, c :: s =>
    if isAlpha c then getSchemeFrom rawURL (i + 1) s
    else if isDigit c || c == '+'.toNat || c == '-'.toNat || c == '.'.toNat then
      if i == 0 then .ok ([], rawURL) else getSchemeFrom rawURL (i + 1) s
    else if c == ':'.toNat then
      if i == 0 then .error "missing protocol scheme" else .ok (rawURL.take i, s)
    else .ok ([], rawURL)

/-- Go `getScheme`: splits a leading `scheme:` off; `(scheme, rest)`. -/
def getScheme (rawURL : GoString) : Except Error (GoString × GoString) :=
  getSchemeFrom rawURL 0 rawURL

/-- Go `validOptionalPort`: empty, or a colon followed by digits only. -/
def validOptionalPort : GoString → Bool
  | [] => true
  | c :: s => c == ':'.toNat && s.all isDigit

/-- Go `validUserinfo`: letters, digits and `- . _ : ~ ! $ & ' ( ) * + , ; = % @` only. -/
def validUserinfo (s : GoString) : Bool :=
  s.all fun r => isAlpha r || isDigit r || r ∈ bytes "-._:~!$&()*+,;=%@" || r == 39

/-- Go `parseHost`.  A host with a `[` is an IP literal: the `[` must open the host, after
the last `]` only a port may follow, and the text between them must be an IPv6 address (with
`%25` before a zone).  In any other host the text from the first colon on must be a port.
The host is unescaped in both cases. -/
def parseHost (host : GoString) : Except Error GoString :=
  match strings.splitLastL '['.toNat host with
  | some (beforeOpen, _) =>
    if !beforeOpen.isEmpty then .error "invalid IP-literal"
    else
    match strings.splitLastL ']'.toNat host with
    | none => .error "missing ']' in host"
    | some (beforeClose, fromClose) =>
      if !validOptionalPort (fromClose.drop 1) then .error "invalid port after host"
      else
        match unescape .encodeHost (fromClose.drop 1) with
        | .error e => .error e
        | .ok unescapedColonPort =>
          match
            (match strings.splitPct25 (beforeClose.drop 1) with
              | some (hostPart, zonePart) =>
                match unescape .encodeHost hostPart, unescape .encodeZone zonePart with
                | .ok h, .ok z => Except.ok (h ++ z)
                | .error e, _ => .error e
                | _, .error e => .error e
              | none => unescape .encodeHost (beforeClose.drop 1)) with
          | .error e => .error e
          | .ok unescapedHostname =>
            if !netip.ParseAddrIs6 unescapedHostname then .error "invalid host"
            else .ok ('['.toNat :: unescapedHostname ++ ']'.toNat :: unescapedColonPort)
  | none =>
    match strings.splitFirstL ':'.toNat host with
    | some (_, colonPort) =>
      if !validOptionalPort colonPort then .error "invalid port after host"
      else unescape .encodeHost host
    | none => unescape .encodeHost host

/-- Go `parseAuthority`, the host part: the user information is checked, not kept. -/
def parseAuthority (authority : GoString) : Except Error GoString :=
  match strings.splitLastL '@'.toNat authority with
  | none => parseHost authority
  | some (userinfo, atHost) =>
    match parseHost (atHost.drop 1) with
    | .error e => .error e
    | .ok host =>
      if !validUserinfo userinfo then .error "net/url: invalid userinfo"
      else
        match unescape .encodeUserPassword (strings.CutL ':'.toNat userinfo).1,
            unescape .encodeUserPassword (strings.CutL ':'.toNat userinfo).2 with
        | .ok _, .ok _ => .ok host
        | .error e, _ => .error e
        | _, .error e => .error e

/-- ASCII `strings.ToLower`. -/
def toLower (s : GoString) : GoString :=
  s.map fun c => if 'A'.toNat ≤ c && c ≤ 'Z'.toNat then c + 32 else c

/-- The path of Go `parse` after the scheme was split off: `rest` is the text up to the
query.  A rootless path after a scheme is opaque; a first segment with a colon is refused;
after `//` comes the authority, up to the next `/`; what is left is the path. -/
def parseRest (scheme rest rawQuery : GoString) : Except Error URL :=
  if !strings.HasPrefixL rest ['/'.toNat] && !scheme.isEmpty then
    .ok ⟨scheme, rest, [], [], rawQuery, []⟩
  else if !strings.HasPrefixL rest ['/'.toNat]
      && (strings.CutL '/'.toNat rest).1.contains ':'.toNat then
    .error "first path segment in URL cannot contain colon"
  else if (!scheme.isEmpty || !strings.HasPrefixL rest ['/'.toNat, '/'.toNat, '/'.toNat])
      && strings.HasPrefixL rest ['/'.toNat, '/'.toNat] then
    match parseAuthority ((rest.drop 2).span (· != '/'.toNat)).1 with
    | .error e => .error e
    | .ok host =>
      match unescape .encodePath ((rest.drop 2).span (· != '/'.toNat)).2 with
      | .error e => .error e
      | .ok p => .ok ⟨scheme, [], host, p, rawQuery, []⟩
  else
    match unescape .encodePath rest with
    | .error e => .error e
    | .ok p => .ok ⟨scheme, [], [], p, rawQuery, []⟩

/-- Go `parse(rawURL, false)`: a URL without its fragment. -/
def parseNoFragment (rawURL : GoString) : Except Error URL :=
  if stringContainsCTLByte rawURL then .error "net/url: invalid control character in URL"
  else if rawURL == ['*'.toNat] then .ok ⟨[], [], [], ['*'.toNat], [], []⟩
  else
    match getScheme rawURL with
    | .error e => .error e
    | .ok (scheme, rest) =>
      if rest.getLast? == some '?'.toNat && rest.count '?'.toNat == 1 then
        parseRest (toLower scheme) rest.dropLast []
      else
        parseRest (toLower scheme) (strings.CutL '?'.toNat rest).1
          (strings.CutL '?'.toNat rest).2

/-- Go `url.Parse`: cuts the fragment off, parses the rest, sets the fragment. -/
def Parse (rawURL : GoString) : Except Error URL :=
  match parseNoFragment (strings.CutL '#'.toNat rawURL).1 with
  | .error e => .error e
  | .ok u =>
    if (strings.CutL '#'.toNat rawURL).2.isEmpty then .ok u
    else
      match unescape .encodeFragment (strings.CutL '#'.toNat rawURL).2 with
      | .error e => .error e
      | .ok f => .ok { u with Fragment := f }

/-- Go `splitHostPort`, the host: a valid port after the last colon is cut off, then a pair
of square brackets around the host. -/
def splitHostPortHost (hostPort : GoString) : GoString :=
  let host :=
    match strings.splitLastL ':'.toNat hostPort with
    | some (before, colonPort) => if validOptionalPort colonPort then before else hostPort
    | none => hostPort
  if strings.HasPrefixL host ['['.toNat] && host.getLast? == some ']'.toNat then
    (host.drop 1).dropLast
  else host

/-- Go `(*URL).Hostname`. -/
def URL.Hostname (u : URL) : GoString :=
  splitHostPortHost u.Host

end url

/-! ## `main.go` -/

/-- Go `type item struct { hn.Item; Host string }`. -/
structure item where
  Item : hn.Item
  Host : GoString
  deriving DecidableEq, Repr

/-- Go `isStoryLink`. -/
def isStoryLink (it : item) : Bool :=
  it.Item.Type_ == "story" && it.Item.URL != ""

/-- Go `parseHNItem`: `ret := item{Item: hnItem}`, then `Host` is set when the URL parses. -/
def parseHNItem (hnItem : hn.Item) : item :=
  let ret : item := { Item := hnItem, Host := [] }
  match url.Parse (bytes ret.Item.URL) with
  | .ok u => { ret with Host := strings.TrimPrefixL u.Hostname (bytes "www.") }
  | .error _ => ret

/-- Go `type result struct { index int; item item; err error }`, local to `getTopStories`. -/
structure result where
  index : Nat
  item : item
  err : Option Error
  deriving DecidableEq, Repr

/-- The zero value `item{}`, which `result{index: index, err: err}` carries. -/
def item.zero : item := { Item := hn.Item.zero, Host := [] }

/-- The steps of the launch loop: `readID i` is the evaluation of `ids[i]`, `spawn index id`
is the statement `go func(index, id int) {...}(index, id)`. -/
inductive Event
  | readID (i : Nat)
  | spawn (index : Nat) (id : Int)
  deriving DecidableEq, Repr

/-- The body of the goroutine `go func(index, id int) {...}`, as the list of its channel
sends in program order:
`hnItem, err := client.GetItem(id)`;
`if err != nil { resultCh <- result{index: index, err: err} }`;
`resultCh <- result{index: index, item: parseHNItem(hnItem)}`.
The `if` has no `return`: the second send follows in both cases. -/
def taskSends (client : hn.Client) (index : Nat) (id : Int) : List result :=
  let hnItem := (client.GetItem index id).1
  let err := (client.GetItem index id).2
  (if err.isSome then [{ index := index, item := item.zero, err := err }] else [])
    ++ [{ index := index, item := parseHNItem hnItem, err := none }]

/-- The launch loop `for i := 0; i < numStories; i++ { go func(...){...}(i, ids[i]) }`, from
`i` on with `k` iterations to go.  Every iteration reads `ids[i]`; a read past the end of the
slice is a run-time panic (`none`), which ends the loop.  Otherwise the task of rank `i` is
launched.  Returns the events and the pending sends of the launched tasks, by rank. -/
def launchFrom (client : hn.Client) (ids : List Int) :
    Nat → Nat → List Event × Option (List (List result))
  | _, 0 => ([], some [])
  | i, k + 1 =>
    match ids.get? i with
    | none => ([Event.readID i], none)
    | some id =>
      (Event.readID i :: Event.spawn i id :: (launchFrom client ids (i + 1) k).1,
        ((launchFrom client ids (i + 1) k).2).map fun ts => taskSends client i id :: ts)

/-- One receive `<-resultCh` from the task at position `k`: the channel is unbuffered, so the
value is the first pending send of that task, which then goes on to its next send.  `none`
when that task has nothing left to send. -/
def recvFrom (tasks : List (List result)) (k : Nat) : Option (result × List (List result)) :=
  match tasks.get? k with
  | some (m :: rest) => some (m, tasks.set k rest)
  | _ => none

/-- The collecting loop `for i := 0; i < numStories; i++ { results = append(results,
<-resultCh) }` with `n` receives to go.  `sched` names, receive by receive, the task whose
send arrives.  `none` when this order cannot happen: a named task has no send pending, or the
order ends before the loop does. -/
def receive : Nat → List (List result) → List Nat → List result → Option (List result)
  | 0, _, _, results => some results
  | _ + 1, _, [], _ => none
  | n + 1, tasks, k :: sched, results =>
    match recvFrom tasks k with
    | none => none
    | some (m, tasks') => receive n tasks' sched (results ++ [m])

/-- The comparison passed to `sort.Slice`: `results[i].index < results[j].index`. -/
def less (a b : result) : Bool := a.index < b.index

/-- Insertion of one result into a list sorted by `less`: it passes the results that are
`less` than it and stops before the first one that is not, so results of equal rank keep
their order. -/
def insertResult (x : result) : List result → List result
  | [] => [x]
  | y :: l => if less y x then y :: insertResult x l else x :: y :: l

/-- Go `sort.Slice(results, less)`, from the standard library: it sorts by `less` and is not
stable.  Modelled by insertion sort (which `sort.Slice` runs on slices of at most 12
elements), which keeps results of equal rank in place; `reduce_sorted_perm_eq` shows that
the output of `getTopStories` is the same for every other way of sorting the collected
results by `less`. -/
def sortSlice : List result → List result
  | [] => []
  | x :: l => insertResult x (sortSlice l)

/-- The loop `for _, res := range results` at the end of `getTopStories`, keeping the whole
result: a result with an error is skipped, one whose item is a story link is kept. -/
def keep : List result → List result
  | [] => []
  | res :: rest =>
    if res.err.isSome then keep rest
    else if isStoryLink res.item then res :: keep rest
    else keep rest

/-- The loop `for _, res := range results { if res.err != nil { continue }; if
isStoryLink(res.item) { stories = append(stories, res.item) } }`. -/
def reduce : List result → List item
  | [] => []
  | res :: rest =>
    if res.err.isSome then reduce rest
    else if isStoryLink res.item then res.item :: reduce rest
    else reduce rest

/-- How a call of `getTopStories` ends. -/
inductive Outcome
  | returned (stories : List item) (err : Option Error)
  | panicked
  | noSuchRun
  deriving DecidableEq, Repr

/-- A run of `getTopStories`: what the coordinator did and how the call ended. -/
structure Run where
  events : List Event
  collected : List result
  outcome : Outcome
  deriving DecidableEq, Repr

/-- Go `getTopStories(numStories)`, run against the answers `client` with the results
arriving in the order `sched`.
`panicked`: the launch loop read past the end of `ids`.
`noSuchRun`: `sched` is not an order in which the results can arrive.
`collected` is the slice `results` after the collecting loop, before `sort.Slice`. -/
def getTopStories (client : hn.Client) (numStories : Int) (sched : List Nat) : Run :=
  let ids := client.TopItems.1
  let err := client.TopItems.2
  if err.isSome then
    { events := [], collected := [],
      outcome := .returned [] (some "Failed to load top stories") }
  else
    match launchFrom client ids 0 numStories.toNat with
    | (events, none) => { events := events, collected := [], outcome := .panicked }
    | (events, some tasks) =>
      match receive numStories.toNat tasks sched [] with
      | none => { events := events, collected := [], outcome := .noSuchRun }
      | some results =>
        { events := events, collected := results,
          outcome := .returned (reduce (sortSlice results)) none }

/-- The ranks of the items that `getTopStories` returns, in output order: the `index` of
every result that the last loop keeps. -/
def keptRanks (r : Run) : List Nat :=
  (keep (sortSlice r.collected)).map (·.index)

/-- The output that the specification describes: in ascending rank order, the enriched items
of the ranks below `n` whose fetch succeeded and whose item is a story link. -/
def expectedStories (client : hn.Client) (ids : List Int) (n : Nat) : List item :=
  (List.range n).filterMap fun i =>
    match ids.get? i with
    | none => none
    | some id =>
      if (client.GetItem i id).2.isNone && isStoryLink (parseHNItem (client.GetItem i id).1)
      then some (parseHNItem (client.GetItem i id).1) else none

/-- The pending sends of the tasks of ranks `i .. i + k - 1`, as the launch loop leaves them
when every read `ids[j]` is in range. -/
def launched (client : hn.Client) (ids : List Int) (i k : Nat) : List (List result) :=
  (List.range' i k).map fun j => taskSends client j (ids.getD j 0)

/-- The ranks of the results without an error, in list order. -/
def okRanks (l : List result) : List Nat :=
  (l.filter fun r => r.err.isNone).map (·.index)

/-- The items that a run returns; none when the call does not return. -/
def Run.stories (r : Run) : List item :=
  match r.outcome with
  | .returned stories _ => stories
  | _ => []

/-! ## Concrete services -/

/-- A story with a link, as the service answers for `id`. -/
def storyOf (id : Int) : hn.Item :=
  { ID := id, Type_ := "story", URL := "https://www.example.com/x", Title := "t", Score := 1 }

/-- The scenario of the specification (§8): five ranked IDs, every item is a story with a
URL, only the fetch of rank 3 fails; `GetItem` returns the zero item next to its error. -/
def scenarioClient : hn.Client :=
  { TopItems := ([10, 11, 12, 13, 14], none),
    GetItem := fun index id =>
      if index = 3 then (hn.Item.zero, some "fetch failed") else (storyOf id, none) }

/-- The same scenario, except that the failed fetch of rank 3 had decoded its item before
the error: `GetItem` returns the story next to its error. -/
def scenarioClientDecoded : hn.Client :=
  { TopItems := ([10, 11, 12, 13, 14], none),
    GetItem := fun index id =>
      if index = 3 then (storyOf id, some "fetch failed") else (storyOf id, none) }

/-- Two ranked IDs; the fetch of rank 0 fails after the item was decoded in part, so
`GetItem` returns a story with a URL next to its error; the fetch of rank 1 succeeds. -/
def partialDecodeClient : hn.Client :=
  { TopItems := ([10, 11], none),
    GetItem := fun index id =>
      if index = 0 then (storyOf id, some "json: cannot unmarshal") else (storyOf id, none) }

/-- A service whose ranked ID list is empty. -/
def emptyListClient : hn.Client :=
  { TopItems := ([], none), GetItem := fun _ _ => (hn.Item.zero, none) }

/-- A service whose `TopItems` call fails. -/
def downClient : hn.Client :=
  { TopItems := ([], some "connection refused"), GetItem := fun _ id => (storyOf id, none) }

/-- Ranks compared with `<` are antisymmetric. -/
instance lessIndexAntisymm : IsAntisymm result (fun a b => a.index < b.index) :=
  ⟨fun _ _ h1 h2 => absurd h1 (Nat.lt_asymm h2)⟩


namespace url

/-- A byte of a host name written as is: a letter, a digit, `-`, `.`, or a byte of a
character outside ASCII (128 to 255). -/
def isHostNameByte (c : Nat) : Bool :=
  ascii.isAlpha c || ascii.isDigit c || c == '-'.toNat || c == '.'.toNat ||
    (decide (128 ≤ c) && decide (c < 256))

/-- A byte of a path, query or fragment written as is: no control byte and not `%`. -/
def isPlainTailByte (c : Nat) : Bool :=
  !(decide (c < 32) || c == 127) && c != '%'.toNat

/-- What follows the authority is empty or starts a path (`/`), a query (`?`) or a
fragment (`#`). -/
def startsTail : GoString → Bool
  | [] => true
  | c :: _ => c == '/'.toNat || c == '?'.toNat || c == '#'.toNat

/-- The text `:port` of an authority, empty without a port. -/
def portText : Option GoString → GoString
  | none => []
  | some p => ':'.toNat :: p

end url

/-- An item whose URL has a port, a path, a query and a fragment. -/
def portItem : hn.Item :=
  { ID := 1, Type_ := "story", URL := "https://www.example.com:8080/a/b?q=1#top",
    Title := "t", Score := 1 }

/-! ## The sort and the last loop -/

theorem keep_eq_filter (l : List result) :
    keep l = l.filter (fun r => r.err.isNone && isStoryLink r.item) := by
  induction l with
  | nil => rfl
  | cons r l ih =>
    cases h : r.err <;> cases h2 : isStoryLink r.item <;> simp [keep, List.filter, h, h2, ih]

theorem reduce_eq_map_keep (l : List result) : reduce l = (keep l).map (·.item) := by
  induction l with
  | nil => rfl
  | cons r l ih =>
    cases h : r.err <;> cases h2 : isStoryLink r.item <;> simp [keep, reduce, h, h2, ih]

theorem insertResult_perm (x : result) (l : List result) : (insertResult x l).Perm (x :: l) := by
  induction l with
  | nil => exact List.Perm.refl _
  | cons y l ih =>
    unfold insertResult
    split
    · exact (List.Perm.cons y ih).trans (List.Perm.swap x y l)
    · exact List.Perm.refl _

theorem sortSlice_perm (l : List result) : (sortSlice l).Perm l := by
  induction l with
  | nil => exact List.Perm.refl _
  | cons x l ih => exact (insertResult_perm x (sortSlice l)).trans (List.Perm.cons x ih)

theorem insertResult_sorted (x : result) (l : List result)
    (h : l.Pairwise (fun a b => a.index ≤ b.index)) :
    (insertResult x l).Pairwise (fun a b => a.index ≤ b.index) := by
  induction l with
  | nil => simp [insertResult]
  | cons y l ih =>
    unfold insertResult
    rw [List.pairwise_cons] at h
    split
    · rename_i hlt
      simp only [less, decide_eq_true_eq] at hlt
      refine List.pairwise_cons.mpr ⟨?_, ih h.2⟩
      intro b hb
      rcases List.mem_cons.mp ((insertResult_perm x l).subset hb) with rfl | hb
      · omega
      · exact h.1 b hb
    · rename_i hlt
      simp only [less, decide_eq_true_eq] at hlt
      refine List.pairwise_cons.mpr ⟨?_, List.pairwise_cons.mpr h⟩
      intro b hb
      rcases List.mem_cons.mp hb with rfl | hb
      · omega
      · have := h.1 b hb; omega

theorem sortSlice_sorted (l : List result) :
    (sortSlice l).Pairwise (fun a b => a.index ≤ b.index) := by
  induction l with
  | nil => simp [sortSlice]
  | cons x l ih => exact insertResult_sorted x _ ih

/-! ## The channel -/

theorem recvFrom_perm : ∀ (tasks : List (List result)) (k : Nat) (m : result)
    (tasks' : List (List result)), recvFrom tasks k = some (m, tasks') →
    tasks.flatten.Perm (m :: tasks'.flatten)
  | [], k, m, tasks', h => by simp [recvFrom] at h
  | t :: ts, 0, m, tasks', h => by
    cases t with
    | nil => simp [recvFrom] at h
    | cons a rest =>
      simp [recvFrom] at h
      obtain ⟨rfl, rfl⟩ := h
      simp
  | t :: ts, k + 1, m, tasks', h => by
    have h2 : ∃ ts', recvFrom ts k = some (m, ts') ∧ tasks' = t :: ts' := by
      simp only [recvFrom, List.get?_cons_succ, List.set_cons_succ] at h ⊢
      split at h
      · rename_i a rest heq
        simp only [Option.some.injEq, Prod.mk.injEq] at h
        exact ⟨_, by rw [h.1], h.2.symm⟩
      · cases h
    obtain ⟨ts', h3, rfl⟩ := h2
    have ih := recvFrom_perm ts k m ts' h3
    simp only [List.flatten_cons]
    exact (List.Perm.append_left t ih).trans List.perm_middle

theorem receive_perm : ∀ (n : Nat) (tasks : List (List result)) (sched : List Nat)
    (rs0 rs : List result), receive n tasks sched rs0 = some rs →
    ∃ tasks' : List (List result),
      (rs ++ tasks'.flatten).Perm (rs0 ++ tasks.flatten) ∧ rs.length = rs0.length + n
  | 0, tasks, sched, rs0, rs, h => by
    simp only [receive, Option.some.injEq] at h
    subst h
    exact ⟨tasks, List.Perm.refl _, rfl⟩
  | n + 1, tasks, [], rs0, rs, h => by simp [receive] at h
  | n + 1, tasks, k :: sched, rs0, rs, h => by
    simp only [receive] at h
    split at h
    · cases h
    · rename_i m tasks1 heq
      obtain ⟨tasks', hp, hl⟩ := receive_perm n tasks1 sched (rs0 ++ [m]) rs h
      refine ⟨tasks', hp.trans ?_, by simp at hl; omega⟩
      have := recvFrom_perm tasks k m tasks1 heq
      rw [List.append_assoc]
      exact List.Perm.append_left rs0 this.symm

theorem recvFrom_head (tasks : List (List result)) (k : Nat) (m : result) (rest : List result)
    (h : tasks.get? k = some (m :: rest)) : recvFrom tasks k = some (m, tasks.set k rest) := by
  unfold recvFrom
  rw [h]

/-- The arrival order `i, i + 1, ..., i + n - 1` can happen whenever each of these tasks has
a send pending. -/
theorem receive_in_rank_order : ∀ (n i : Nat) (tasks : List (List result)) (rs0 : List result),
    (∀ j, i ≤ j → j < i + n → ∃ m rest, tasks.get? j = some (m :: rest)) →
    ∃ rs, receive n tasks (List.range' i n) rs0 = some rs
  | 0, i, tasks, rs0, _ => ⟨rs0, rfl⟩
  | n + 1, i, tasks, rs0, h => by
    obtain ⟨m, rest, hm⟩ := h i (by omega) (by omega)
    simp only [List.range'_succ, receive, recvFrom_head tasks i m rest hm]
    apply receive_in_rank_order n (i + 1)
    intro j h1 h2
    obtain ⟨m', rest', hj⟩ := h j (by omega) (by omega)
    refine ⟨m', rest', ?_⟩
    rw [List.get?_eq_getElem?, List.getElem?_set_ne (by omega), ← List.get?_eq_getElem?]
    exact hj

theorem flatten_pos_recv : ∀ (tasks : List (List result)), 0 < tasks.flatten.length →
    ∃ j m tasks', recvFrom tasks j = some (m, tasks')
  | [], h => by simp at h
  | [] :: ts, h => by
    obtain ⟨j, m, tasks', hj⟩ := flatten_pos_recv ts (by simpa using h)
    unfold recvFrom at hj
    split at hj
    · rename_i a rest heq
      exact ⟨j + 1, a, _, recvFrom_head ([] :: ts) (j + 1) a rest (by simpa using heq)⟩
    · cases hj
  | (m :: rest) :: ts, _ => ⟨0, m, _, recvFrom_head _ 0 m rest rfl⟩

/-- No deadlock: after `k` receives, as long as sends are left, one more receive can happen. -/
theorem receive_progress : ∀ (k : Nat) (tasks : List (List result)) (sched : List Nat)
    (rs0 rs : List result), receive k tasks sched rs0 = some rs → k < tasks.flatten.length →
    ∃ j rs', receive (k + 1) tasks (sched.take k ++ [j]) rs0 = some rs'
  | 0, tasks, sched, rs0, rs, _, hlen => by
    obtain ⟨j, m, tasks', hj⟩ := flatten_pos_recv tasks hlen
    exact ⟨j, rs0 ++ [m], by simp [receive, hj]⟩
  | k + 1, tasks, [], rs0, rs, h, _ => by simp [receive] at h
  | k + 1, tasks, j0 :: sched, rs0, rs, h, hlen => by
    simp only [receive] at h
    split at h
    · cases h
    · rename_i m tasks1 heq
      have hp := (recvFrom_perm tasks j0 m tasks1 heq).length_eq
      simp only [List.length_cons] at hp
      obtain ⟨j, rs', hj⟩ := receive_progress k tasks1 sched (rs0 ++ [m]) rs h (by omega)
      refine ⟨j, rs', ?_⟩
      rw [List.take_succ_cons, List.cons_append]
      simp only [receive, heq]
      exact hj

/-! ## The launch loop -/

theorem get_eq_some_getD (ids : List Int) (i : Nat) (hi : i < ids.length) :
    ids.get? i = some (ids.getD i 0) := by
  simp [List.getD, List.get?_eq_getElem?, List.getElem?_eq_getElem hi]

theorem launchFrom_ok (client : hn.Client) (ids : List Int) :
    ∀ (k i : Nat), i + k ≤ ids.length →
      (launchFrom client ids i k).2 = some (launched client ids i k)
  | 0, i, _ => by simp [launchFrom, launched]
  | k + 1, i, h => by
    have hi : i < ids.length := by omega
    have ih := launchFrom_ok client ids k (i + 1) (by omega)
    have hget := get_eq_some_getD ids i hi
    simp only [launchFrom, hget, ih, launched, Option.map_some', List.range'_succ, List.map_cons]

theorem launchFrom_reads (client : hn.Client) (ids : List Int) :
    ∀ (k i : Nat), i + k ≤ ids.length →
      ∀ j, Event.readID j ∈ (launchFrom client ids i k).1 → j < ids.length
  | 0, i, _, j, hj => by simp [launchFrom] at hj
  | k + 1, i, h, j, hj => by
    have hi : i < ids.length := by omega
    have hget := get_eq_some_getD ids i hi
    simp only [launchFrom, hget, List.mem_cons, Event.readID.injEq, false_or] at hj
    rcases hj with rfl | hj | hj
    · exact hi
    · cases hj
    · exact launchFrom_reads client ids k (i + 1) (by omega) j hj

theorem launchFrom_panics (client : hn.Client) (ids : List Int) :
    ∀ (k i : Nat), i ≤ ids.length → ids.length < i + k →
      (launchFrom client ids i k).2 = none ∧
        Event.readID ids.length ∈ (launchFrom client ids i k).1
  | 0, i, h1, h2 => by omega
  | k + 1, i, h1, h2 => by
    by_cases hi : i < ids.length
    · have hget := get_eq_some_getD ids i hi
      have ih := launchFrom_panics client ids k (i + 1) (by omega) (by omega)
      simp only [launchFrom, hget, ih.1, Option.map_none', List.mem_cons, ih.2, or_true,
        and_self]
    · have hil : i = ids.length := by omega
      have hget : ids.get? i = none := by
        rw [List.get?_eq_none]; omega
      simp [launchFrom, hget, hil]

theorem taskSends_index (client : hn.Client) (j : Nat) (id : Int) :
    ∀ m ∈ taskSends client j id, m.index = j := by
  intro m hm
  unfold taskSends at hm
  cases h : (client.GetItem j id).2 <;> simp [h] at hm
  · rw [hm]
  · rcases hm with rfl | rfl <;> rfl

theorem taskSends_okRanks (client : hn.Client) (j : Nat) (id : Int) :
    okRanks (taskSends client j id) = [j] := by
  unfold taskSends okRanks
  cases h : (client.GetItem j id).2 <;> simp [h, List.filter]

theorem taskSends_ok_item (client : hn.Client) (j : Nat) (id : Int) :
    ∀ m ∈ taskSends client j id, m.err = none →
      m = { index := j, item := parseHNItem (client.GetItem j id).1, err := none } := by
  intro m hm he
  unfold taskSends at hm
  cases h : (client.GetItem j id).2 <;> simp [h] at hm
  · exact hm
  · rcases hm with rfl | rfl
    · simp at he
    · rfl

theorem taskSends_ne_nil (client : hn.Client) (j : Nat) (id : Int) :
    taskSends client j id ≠ [] := by
  unfold taskSends
  simp

theorem taskSends_cons (client : hn.Client) (j : Nat) (id : Int) :
    ∃ m rest, taskSends client j id = m :: rest := by
  cases h : taskSends client j id with
  | nil => exact absurd h (taskSends_ne_nil client j id)
  | cons m rest => exact ⟨m, rest, rfl⟩

theorem okRanks_append (l₁ l₂ : List result) : okRanks (l₁ ++ l₂) = okRanks l₁ ++ okRanks l₂ := by
  simp [okRanks]

theorem launched_okRanks (client : hn.Client) (ids : List Int) :
    ∀ (k i : Nat), okRanks (launched client ids i k).flatten = List.range' i k
  | 0, i => by simp [launched, okRanks]
  | k + 1, i => by
    have ih := launched_okRanks client ids k (i + 1)
    simp only [launched, List.range'_succ, List.map_cons, List.flatten_cons, okRanks_append,
      taskSends_okRanks] at ih ⊢
    rw [ih]
    rfl

theorem launched_mem (client : hn.Client) (ids : List Int) (i k : Nat) (m : result)
    (hm : m ∈ (launched client ids i k).flatten) :
    i ≤ m.index ∧ m.index < i + k ∧ m ∈ taskSends client m.index (ids.getD m.index 0) := by
  simp only [launched, List.mem_flatten, List.mem_map, List.mem_range'_1] at hm
  obtain ⟨l, ⟨j, hj, rfl⟩, hml⟩ := hm
  have := taskSends_index client j _ m hml
  subst this
  exact ⟨hj.1, hj.2, hml⟩

theorem launched_get (client : hn.Client) (ids : List Int) (i k j : Nat) (hj : j < k) :
    (launched client ids i k).get? j = some (taskSends client (i + j) (ids.getD (i + j) 0)) := by
  simp [launched, List.get?_eq_getElem?, List.getElem?_map, List.getElem?_range' , hj]

theorem launched_flatten_length (client : hn.Client) (ids : List Int) (i k : Nat) :
    k ≤ (launched client ids i k).flatten.length := by
  have h := launched_okRanks client ids k i
  have h2 : (okRanks (launched client ids i k).flatten).length ≤
      (launched client ids i k).flatten.length := by
    simp only [okRanks, List.length_map]
    exact List.length_filter_le _ _
  rw [h, List.length_range'] at h2
  exact h2

/-! ## What the coordinator collects -/

theorem okRanks_subperm {l₁ l₂ : List result} (h : l₁.Subperm l₂) :
    (okRanks l₁).Subperm (okRanks l₂) := by
  obtain ⟨l, hp, hs⟩ := h.filter (fun r => r.err.isNone)
  exact ⟨l.map (·.index), hp.map (·.index), hs.map (·.index)⟩

theorem okRanks_perm {l₁ l₂ : List result} (h : l₁.Perm l₂) :
    (okRanks l₁).Perm (okRanks l₂) :=
  (h.filter _).map _

theorem keep_map_index_sublist (l : List result) :
    ((keep l).map (·.index)).Sublist (okRanks l) := by
  rw [keep_eq_filter, okRanks]
  apply List.Sublist.map
  induction l with
  | nil => simp
  | cons r l ih =>
    cases h : r.err <;> cases h2 : isStoryLink r.item <;> simp [List.filter, h, h2, ih]

theorem keep_ranks_strict (l : List result)
    (hs : l.Pairwise (fun a b => a.index ≤ b.index)) (hn : (okRanks l).Nodup) :
    ((keep l).map (·.index)).Pairwise (· < ·) := by
  have h1 : ((keep l).map (·.index)).Pairwise (· ≤ ·) := by
    rw [List.pairwise_map, keep_eq_filter]
    exact hs.sublist (List.filter_sublist _)
  have h2 : ((keep l).map (·.index)).Pairwise (· ≠ ·) :=
    (keep_map_index_sublist l).nodup hn
  exact (h1.and h2).imp (fun h => Nat.lt_of_le_of_ne h.1 h.2)

theorem received_facts (client : hn.Client) (ids : List Int) (n : Nat) (sched : List Nat)
    (rs : List result) (h : receive n (launched client ids 0 n) sched [] = some rs) :
    rs.length = n ∧ rs.Subperm (launched client ids 0 n).flatten ∧ (okRanks rs).Nodup ∧
      (∀ j ∈ okRanks rs, j < n) ∧
      ∀ m ∈ rs, m.index < n ∧ m ∈ taskSends client m.index (ids.getD m.index 0) := by
  obtain ⟨tasks', hp, hl⟩ := receive_perm n _ sched [] rs h
  have hsub : rs.Subperm (launched client ids 0 n).flatten := by
    have h1 : rs.Sublist (rs ++ tasks'.flatten) := List.sublist_append_left _ _
    exact h1.subperm.trans (by simpa using hp.subperm)
  have hok : (okRanks rs).Subperm (List.range' 0 n) := by
    rw [← launched_okRanks client ids n 0]
    exact okRanks_subperm hsub
  have hnd : (okRanks rs).Nodup := by
    obtain ⟨l, hp2, hs2⟩ := hok
    exact hp2.nodup_iff.mp (hs2.nodup (List.nodup_range' 0 n))
  refine ⟨by simpa using hl, hsub, hnd, ?_, ?_⟩
  · intro j hj
    have := hok.subset hj
    simp only [List.mem_range'_1] at this
    omega
  · intro m hm
    have := launched_mem client ids 0 n m (hsub.subset hm)
    exact ⟨by omega, this.2.2⟩

/-! ## Runs of `getTopStories` -/

theorem getTopStories_of_listError (client : hn.Client) (numStories : Int) (sched : List Nat)
    (h : client.TopItems.2.isSome = true) :
    getTopStories client numStories sched =
      { events := [], collected := [],
        outcome := .returned [] (some "Failed to load top stories") } := by
  simp [getTopStories, h]

theorem getTopStories_of_inRange (client : hn.Client) (n : Nat) (sched : List Nat)
    (herr : client.TopItems.2 = none) (hn : n ≤ client.TopItems.1.length) :
    getTopStories client (n : Int) sched =
      match receive n (launched client client.TopItems.1 0 n) sched [] with
      | none =>
        { events := (launchFrom client client.TopItems.1 0 n).1, collected := [],
          outcome := .noSuchRun }
      | some rs =>
        { events := (launchFrom client client.TopItems.1 0 n).1, collected := rs,
          outcome := .returned (reduce (sortSlice rs)) none } := by
  have h1 : launchFrom client client.TopItems.1 0 n =
      ((launchFrom client client.TopItems.1 0 n).1, some (launched client client.TopItems.1 0 n)) :=
    Prod.ext rfl (launchFrom_ok client _ n 0 (by omega))
  simp only [getTopStories, herr, Option.isSome_none, Bool.false_eq_true, ↓reduceIte,
    Int.toNat_ofNat]
  rw [h1]

theorem getTopStories_of_outOfRange (client : hn.Client) (n : Nat) (sched : List Nat)
    (herr : client.TopItems.2 = none) (hn : client.TopItems.1.length < n) :
    (getTopStories client (n : Int) sched).outcome = .panicked ∧
      Event.readID client.TopItems.1.length ∈ (getTopStories client (n : Int) sched).events := by
  have h := launchFrom_panics client client.TopItems.1 n 0 (by omega) (by omega)
  have h1 : launchFrom client client.TopItems.1 0 n =
      ((launchFrom client client.TopItems.1 0 n).1, none) := Prod.ext rfl h.1
  simp only [getTopStories, herr, Option.isSome_none, Bool.false_eq_true, ↓reduceIte,
    Int.toNat_ofNat]
  rw [h1]
  exact ⟨rfl, h.2⟩

/-- In every run the returned items are the last loop applied to the sorted collection. -/
theorem stories_eq_reduce (client : hn.Client) (numStories : Int) (sched : List Nat) :
    (getTopStories client numStories sched).stories =
      reduce (sortSlice (getTopStories client numStories sched).collected) := by
  unfold getTopStories
  by_cases h : client.TopItems.2.isSome = true
  · simp [h, Run.stories, reduce, sortSlice]
  · simp only [h, Bool.false_eq_true, ↓reduceIte]
    rcases launchFrom client client.TopItems.1 0 numStories.toNat with ⟨ev, _ | tasks⟩
    · simp [Run.stories, reduce, sortSlice]
    · dsimp only
      generalize receive numStories.toNat tasks sched [] = r
      cases r <;> simp [Run.stories, reduce, sortSlice]

theorem stories_all_isStoryLink (client : hn.Client) (numStories : Int) (sched : List Nat) :
    (getTopStories client numStories sched).stories.all isStoryLink = true := by
  rw [stories_eq_reduce, reduce_eq_map_keep, keep_eq_filter, List.all_eq_true]
  intro it hit
  obtain ⟨m, hm, rfl⟩ := List.mem_map.mp hit
  have := (List.mem_filter.mp hm).2
  simp only [Bool.and_eq_true] at this
  exact this.2

theorem collected_facts (client : hn.Client) (n : Nat) (sched : List Nat)
    (hn : n ≤ client.TopItems.1.length) :
    (okRanks (getTopStories client (n : Int) sched).collected).Nodup ∧
      ∀ m ∈ (getTopStories client (n : Int) sched).collected,
        m.index < n ∧ m ∈ taskSends client m.index (client.TopItems.1.getD m.index 0) := by
  cases herr : client.TopItems.2 with
  | some e =>
    rw [getTopStories_of_listError client n sched (by rw [herr]; rfl)]
    exact ⟨List.nodup_nil, fun m hm => by cases hm⟩
  | none =>
    rw [getTopStories_of_inRange client n sched herr hn]
    cases hr : receive n (launched client client.TopItems.1 0 n) sched [] with
    | none => exact ⟨List.nodup_nil, fun m hm => by cases hm⟩
    | some rs =>
      have := received_facts client client.TopItems.1 n sched rs hr
      exact ⟨this.2.2.1, this.2.2.2.2⟩

/-! ## The output does not depend on how ties are sorted -/

theorem keep_strict (l : List result)
    (hs : l.Pairwise (fun a b => a.index ≤ b.index)) (hn : (okRanks l).Nodup) :
    (keep l).Pairwise (fun a b => a.index < b.index) := by
  have := keep_ranks_strict l hs hn
  rwa [List.pairwise_map] at this

/-- Two orderings of the same results, both sorted by rank, give the same output when no rank
has two results without an error: `sort.Slice` not being stable does not matter. -/
theorem reduce_sorted_perm_eq (l₁ l₂ : List result) (hp : l₁.Perm l₂)
    (h₁ : l₁.Pairwise (fun a b => a.index ≤ b.index))
    (h₂ : l₂.Pairwise (fun a b => a.index ≤ b.index))
    (hn : (okRanks l₁).Nodup) : reduce l₁ = reduce l₂ := by
  have hn2 : (okRanks l₂).Nodup := (okRanks_perm hp).nodup_iff.mp hn
  have hk : (keep l₁).Perm (keep l₂) := by
    rw [keep_eq_filter, keep_eq_filter]
    exact hp.filter _
  rw [reduce_eq_map_keep, reduce_eq_map_keep,
    List.eq_of_perm_of_sorted hk (keep_strict l₁ h₁ hn) (keep_strict l₂ h₂ hn2)]

theorem keep_item_of_received (client : hn.Client) (ids : List Int) (l : List result)
    (h : ∀ m ∈ l, m ∈ taskSends client m.index (ids.getD m.index 0)) :
    (keep l).map (·.item) =
      ((keep l).map (·.index)).map fun j => parseHNItem (client.GetItem j (ids.getD j 0)).1 := by
  rw [List.map_map]
  apply List.map_congr_left
  intro m hm
  rw [keep_eq_filter, List.mem_filter] at hm
  have he : m.err = none := by
    have := hm.2
    simp only [Bool.and_eq_true, Option.isNone_iff_eq_none] at this
    exact this.1
  have := taskSends_ok_item client m.index _ m (h m hm.1) he
  simp only [Function.comp]
  conv_lhs => rw [this]

theorem strict_lt_sublist_range (l : List Nat) (n : Nat) (hs : l.Pairwise (· < ·))
    (hb : ∀ j ∈ l, j < n) : l.Sublist (List.range n) := by
  have hnd : l.Nodup := hs.imp (fun h => Nat.ne_of_lt h)
  have hsub : l.Subperm (List.range n) :=
    List.subperm_of_subset hnd (fun j hj => List.mem_range.mpr (hb j hj))
  exact List.sublist_of_subperm_of_sorted hsub hs (List.sorted_lt_range n)

/-- The output of a run does not depend on how `sort.Slice` orders results of equal rank:
every list that holds the collected results in non-decreasing rank order gives the returned
items. -/
theorem output_independent_of_sort (client : hn.Client) (n : Nat) (sched : List Nat)
    (hn : n ≤ client.TopItems.1.length) (l : List result)
    (hp : l.Perm (getTopStories client (n : Int) sched).collected)
    (hs : l.Pairwise (fun a b => a.index ≤ b.index)) :
    reduce l = (getTopStories client (n : Int) sched).stories := by
  rw [stories_eq_reduce]
  have hnd := (collected_facts client n sched hn).1
  exact reduce_sorted_perm_eq l _ (hp.trans (sortSlice_perm _).symm) hs (sortSlice_sorted _)
    ((okRanks_perm hp).nodup_iff.mpr hnd)

/-! ## Runs in which no fetch fails -/

theorem taskSends_of_ok (client : hn.Client) (j : Nat) (id : Int)
    (h : (client.GetItem j id).2 = none) :
    taskSends client j id =
      [{ index := j, item := parseHNItem (client.GetItem j id).1, err := none }] := by
  simp [taskSends, h]

theorem launched_flatten_of_ok (client : hn.Client) (ids : List Int) :
    ∀ (k i : Nat), (∀ j, i ≤ j → j < i + k → (client.GetItem j (ids.getD j 0)).2 = none) →
      (launched client ids i k).flatten = (List.range' i k).map fun j =>
        { index := j, item := parseHNItem (client.GetItem j (ids.getD j 0)).1, err := none }
  | 0, i, _ => by simp [launched]
  | k + 1, i, h => by
    have ih := launched_flatten_of_ok client ids k (i + 1)
      (fun j h1 h2 => h j (by omega) (by omega))
    simp only [launched, List.range'_succ, List.map_cons, List.flatten_cons] at ih ⊢
    rw [ih, taskSends_of_ok client i _ (h i (by omega) (by omega))]
    rfl

theorem reduce_launched_of_ok (client : hn.Client) (ids : List Int) (n : Nat)
    (hn : n ≤ ids.length)
    (hok : ∀ j, j < n → (client.GetItem j (ids.getD j 0)).2 = none) :
    reduce (launched client ids 0 n).flatten = expectedStories client ids n := by
  rw [launched_flatten_of_ok client ids n 0 (fun j _ h2 => hok j (by omega)),
    expectedStories, List.range_eq_range']
  have hgen : ∀ (l : List Nat), (∀ j ∈ l, j < n) →
      reduce (l.map fun j =>
        ({ index := j, item := parseHNItem (client.GetItem j (ids.getD j 0)).1,
           err := none } : result)) =
      l.filterMap fun i =>
        match ids.get? i with
        | none => none
        | some id =>
          if (client.GetItem i id).2.isNone && isStoryLink (parseHNItem (client.GetItem i id).1)
          then some (parseHNItem (client.GetItem i id).1) else none := by
    intro l
    induction l with
    | nil => intro _; rfl
    | cons j l ih =>
      intro hl
      have hj : j < n := hl j (List.mem_cons_self _ _)
      have ih2 := ih (fun x hx => hl x (List.mem_cons_of_mem _ hx))
      have hget := get_eq_some_getD ids j (by omega)
      simp only [List.map_cons, reduce, Option.isSome_none, Bool.false_eq_true, ↓reduceIte,
        List.filterMap_cons, hget, hok j hj, Option.isNone_none, Bool.true_and, ih2]
      cases isStoryLink (parseHNItem (client.GetItem j (ids.getD j 0)).1) <;> simp
  exact hgen _ (fun j hj => by
    have := List.mem_range'_1.mp hj
    omega)

/-- When no fetch fails, every arrival order gives the output that the specification
describes: the enriched story links of the first `n` ranks, in rank order. -/
theorem no_failure_output_eq_expected (client : hn.Client) (n : Nat) (sched : List Nat)
    (herr : client.TopItems.2 = none) (hn : n ≤ client.TopItems.1.length)
    (hok : ∀ j, j < n → (client.GetItem j (client.TopItems.1.getD j 0)).2 = none)
    (hrun : (getTopStories client (n : Int) sched).outcome ≠ .noSuchRun) :
    (getTopStories client (n : Int) sched).outcome =
      .returned (expectedStories client client.TopItems.1 n) none := by
  rw [getTopStories_of_inRange client n sched herr hn] at hrun ⊢
  cases hr : receive n (launched client client.TopItems.1 0 n) sched [] with
  | none => rw [hr] at hrun; exact absurd rfl hrun
  | some rs =>
    obtain ⟨hlen, hsub, hnd, -, -⟩ := received_facts client client.TopItems.1 n sched rs hr
    have hflat := launched_flatten_of_ok client client.TopItems.1 n 0
      (fun j _ h2 => hok j (by omega))
    have hperm : rs.Perm (launched client client.TopItems.1 0 n).flatten := by
      apply hsub.perm_of_length_le
      rw [hflat, List.length_map, List.length_range', hlen]
    have hsorted : (launched client client.TopItems.1 0 n).flatten.Pairwise
        (fun a b => a.index ≤ b.index) := by
      rw [hflat, List.pairwise_map]
      exact (List.pairwise_lt_range' 0 n).imp (fun h => Nat.le_of_lt h)
    have := reduce_sorted_perm_eq (sortSlice rs) _ ((sortSlice_perm rs).trans hperm)
      (sortSlice_sorted rs) hsorted ((okRanks_perm (sortSlice_perm rs)).nodup_iff.mpr hnd)
    simp only [this, reduce_launched_of_ok client _ n hn hok]

/-! ## URLs -/

theorem isAlpha_iff (c : Nat) :
    ascii.isAlpha c = true ↔ (97 ≤ c ∧ c ≤ 122) ∨ (65 ≤ c ∧ c ≤ 90) := by
  simp [ascii.isAlpha]

theorem isDigit_iff (c : Nat) : ascii.isDigit c = true ↔ (48 ≤ c ∧ c ≤ 57) := by
  simp [ascii.isDigit]

theorem isHostNameByte_iff (c : Nat) :
    url.isHostNameByte c = true ↔
      ((97 ≤ c ∧ c ≤ 122) ∨ (65 ≤ c ∧ c ≤ 90)) ∨ (48 ≤ c ∧ c ≤ 57) ∨ c = 45 ∨ c = 46 ∨
        (128 ≤ c ∧ c < 256) := by
  simp [url.isHostNameByte, isAlpha_iff, isDigit_iff, or_assoc]

theorem shouldEscapeHost_of_alnum (c : Nat)
    (h : ((97 ≤ c ∧ c ≤ 122) ∨ (65 ≤ c ∧ c ≤ 90)) ∨ (48 ≤ c ∧ c ≤ 57) ∨ c = 45 ∨ c = 46 ∨
      c = 58) :
    url.shouldEscapeHost c = false := by
  unfold url.shouldEscapeHost
  by_cases h1 : (ascii.isAlpha c || ascii.isDigit c) = true
  · simp [h1]
  · simp only [h1, Bool.false_eq_true, ↓reduceIte]
    simp only [Bool.or_eq_true, isAlpha_iff, isDigit_iff, not_or] at h1
    have h2 : c = 45 ∨ c = 46 ∨ c = 58 := by omega
    rcases h2 with rfl | rfl | rfl <;> decide

theorem CutL_append (sep : Nat) : ∀ (a b : GoString), sep ∉ a →
    strings.CutL sep (a ++ b) = (a ++ (strings.CutL sep b).1, (strings.CutL sep b).2)
  | [], b, _ => by simp
  | c :: a, b, h => by
    have hc : c ≠ sep := fun e => h (by simp [e])
    have ha : sep ∉ a := fun e => h (List.mem_cons_of_mem _ e)
    simp [strings.CutL, hc, CutL_append sep a b ha]

theorem CutL_fst_subset (sep : Nat) : ∀ (b : GoString) (c : Nat),
    c ∈ (strings.CutL sep b).1 → c ∈ b ∧ c ≠ sep
  | [], c, h => by simp [strings.CutL] at h
  | x :: b, c, h => by
    unfold strings.CutL at h
    by_cases hx : x = sep
    · simp [hx] at h
    · simp only [beq_iff_eq, hx, ↓reduceIte, List.mem_cons] at h
      rcases h with rfl | h
      · exact ⟨List.mem_cons_self _ _, hx⟩
      · exact ⟨List.mem_cons_of_mem _ (CutL_fst_subset sep b c h).1,
          (CutL_fst_subset sep b c h).2⟩

theorem CutL_snd_subset (sep : Nat) : ∀ (b : GoString) (c : Nat),
    c ∈ (strings.CutL sep b).2 → c ∈ b
  | [], c, h => by simp [strings.CutL] at h
  | x :: b, c, h => by
    unfold strings.CutL at h
    by_cases hx : x = sep
    · simp only [hx, beq_self_eq_true, ↓reduceIte] at h
      exact List.mem_cons_of_mem _ h
    · simp only [beq_iff_eq, hx, ↓reduceIte] at h
      exact List.mem_cons_of_mem _ (CutL_snd_subset sep b c h)

theorem CutL_fst_head (sep : Nat) (b : GoString) :
    (strings.CutL sep b).1 = [] ∨
      ∃ c rest, b.head? = some c ∧ c ≠ sep ∧ (strings.CutL sep b).1 = c :: rest := by
  cases b with
  | nil => left; rfl
  | cons x b =>
    unfold strings.CutL
    by_cases hx : x = sep
    · left; simp [hx]
    · right; exact ⟨x, (strings.CutL sep b).1, rfl, hx, by simp [hx]⟩

theorem dropLast_eq_CutL (q : Nat) : ∀ (l : GoString), l.getLast? = some q → l.count q = 1 →
    l.dropLast = (strings.CutL q l).1
  | [], h, _ => by simp at h
  | [x], h, _ => by
    simp at h
    simp [strings.CutL, h]
  | x :: y :: l, h, hc => by
    have h2 : (y :: l).getLast? = some q := by simpa [List.getLast?_cons_cons] using h
    have hmem : q ∈ y :: l := List.mem_of_getLast?_eq_some h2
    have hpos : 0 < (y :: l).count q := List.count_pos_iff.mpr hmem
    have hx : x ≠ q := by
      intro e
      subst e
      rw [List.count_cons_self] at hc
      omega
    have hc2 : (y :: l).count q = 1 := by
      rw [List.count_cons_of_ne (fun e => hx e.symm)] at hc
      exact hc
    have ih := dropLast_eq_CutL q (y :: l) h2 hc2
    rw [List.dropLast_cons₂, ih]
    conv_rhs => unfold strings.CutL
    simp [hx]

theorem span_append (p : Nat → Bool) : ∀ (a b : GoString), (∀ c ∈ a, p c = true) →
    (∀ c, b.head? = some c → p c = false) → (a ++ b).span p = (a, b)
  | [], [], _, _ => rfl
  | [], c :: b, _, h => by
    have := h c rfl
    simp [List.span_eq_take_drop, List.takeWhile, List.dropWhile, this]
  | x :: a, b, ha, h => by
    have hx := ha x (List.mem_cons_self _ _)
    have ih := span_append p a b (fun c hc => ha c (List.mem_cons_of_mem _ hc)) h
    rw [List.span_eq_take_drop] at ih ⊢
    simp only [List.cons_append, List.takeWhile_cons, hx, ↓reduceIte, List.dropWhile_cons,
      Prod.mk.injEq, List.cons.injEq, true_and]
    exact Prod.mk.inj ih

theorem splitLastL_none (sep : Nat) : ∀ (l : GoString), sep ∉ l → strings.splitLastL sep l = none
  | [], _ => rfl
  | c :: l, h => by
    have hc : c ≠ sep := fun e => h (by simp [e])
    simp [strings.splitLastL, splitLastL_none sep l (fun e => h (List.mem_cons_of_mem _ e)), hc]

theorem splitFirstL_none (sep : Nat) : ∀ (l : GoString), sep ∉ l →
    strings.splitFirstL sep l = none
  | [], _ => rfl
  | c :: l, h => by
    have hc : c ≠ sep := fun e => h (by simp [e])
    simp [strings.splitFirstL, splitFirstL_none sep l (fun e => h (List.mem_cons_of_mem _ e)),
      hc]

theorem splitFirstL_append (sep : Nat) : ∀ (a b : GoString), sep ∉ a →
    strings.splitFirstL sep (a ++ sep :: b) = some (a, sep :: b)
  | [], b, _ => by simp [strings.splitFirstL]
  | c :: a, b, h => by
    have hc : c ≠ sep := fun e => h (by simp [e])
    simp [strings.splitFirstL, hc,
      splitFirstL_append sep a b (fun e => h (List.mem_cons_of_mem _ e))]

theorem splitLastL_append (sep : Nat) : ∀ (a b : GoString), sep ∉ b →
    strings.splitLastL sep (a ++ sep :: b) = some (a, sep :: b)
  | [], b, h => by simp [strings.splitLastL, splitLastL_none sep b h]
  | c :: a, b, h => by
    simp [strings.splitLastL, splitLastL_append sep a b h]

theorem unescape_plain (mode : url.encoding) : ∀ (l : GoString),
    (∀ c ∈ l, c ≠ 37 ∧ ((mode = .encodeHost ∨ mode = .encodeZone) → c < 128 →
      url.shouldEscapeHost c = false)) →
    url.unescape mode l = .ok l
  | [], _ => rfl
  | c :: l, h => by
    have hc := h c (List.mem_cons_self _ _)
    have ih := unescape_plain mode l (fun x hx => h x (List.mem_cons_of_mem _ hx))
    unfold url.unescape
    have h37 : (c == '%'.toNat) = false := by simp [hc.1]
    simp only [h37, Bool.false_eq_true, ↓reduceIte, ih]
    by_cases hm : (mode = .encodeHost ∨ mode = .encodeZone)
    · by_cases h128 : c < 128
      · simp [hc.2 hm h128]
      · simp [h128]
    · have : (mode == url.encoding.encodeHost || mode == url.encoding.encodeZone) = false := by
        simp only [not_or] at hm
        simp [hm.1, hm.2]
      simp [this]

theorem HasPrefixL_eq_isPrefixOf : ∀ (s pre : GoString),
    strings.HasPrefixL s pre = pre.isPrefixOf s
  | _, [] => by simp [strings.HasPrefixL]
  | [], _ :: _ => by simp [strings.HasPrefixL]
  | c :: s, p :: pre => by
    simp only [strings.HasPrefixL, List.isPrefixOf, HasPrefixL_eq_isPrefixOf s pre]
    have h : (c == p) = (p == c) := by
      rw [Bool.eq_iff_iff, beq_iff_eq, beq_iff_eq]
      exact eq_comm
    rw [h]

/-- The bytes of an authority `host[:port]` with a plain host name. -/
theorem authority_bytes (host : GoString) (port : Option GoString)
    (hhost : host.all url.isHostNameByte = true)
    (hport : ∀ p, port = some p → p.all ascii.isDigit = true) :
    ∀ c ∈ host ++ url.portText port,
      (((97 ≤ c ∧ c ≤ 122) ∨ (65 ≤ c ∧ c ≤ 90)) ∨ (48 ≤ c ∧ c ≤ 57) ∨ c = 45 ∨ c = 46 ∨
        (128 ≤ c ∧ c < 256)) ∨ c = 58 := by
  intro c hc
  rcases List.mem_append.mp hc with h | h
  · left
    exact (isHostNameByte_iff c).mp (List.all_eq_true.mp hhost c h)
  · cases port with
    | none => simp [url.portText] at h
    | some p =>
      simp only [url.portText, List.mem_cons] at h
      rcases h with rfl | h
      · right; rfl
      · left; right; left
        exact (isDigit_iff c).mp (List.all_eq_true.mp (hport p rfl) c h)

theorem unescape_authority (host : GoString) (port : Option GoString)
    (hhost : host.all url.isHostNameByte = true)
    (hport : ∀ p, port = some p → p.all ascii.isDigit = true) :
    url.unescape .encodeHost (host ++ url.portText port) = .ok (host ++ url.portText port) := by
  apply unescape_plain
  intro c hc
  have := authority_bytes host port hhost hport c hc
  refine ⟨by omega, fun _ h128 => shouldEscapeHost_of_alnum c (by omega)⟩

theorem parseHost_plain (host : GoString) (port : Option GoString)
    (hhost : host.all url.isHostNameByte = true)
    (hport : ∀ p, port = some p → p.all ascii.isDigit = true) :
    url.parseHost (host ++ url.portText port) = .ok (host ++ url.portText port) := by
  have hb := authority_bytes host port hhost hport
  have hopen : strings.splitLastL '['.toNat (host ++ url.portText port) = none :=
    splitLastL_none _ _ (fun h => by have := hb _ h; simp at this)
  unfold url.parseHost
  rw [hopen]
  simp only
  cases port with
  | none =>
    have h58 : strings.splitFirstL ':'.toNat (host ++ url.portText none) = none := by
      apply splitFirstL_none
      intro h
      simp only [url.portText, List.append_nil] at h
      have := (isHostNameByte_iff _).mp (List.all_eq_true.mp hhost _ h)
      simp at this
    rw [h58]
    exact unescape_authority host none hhost hport
  | some p =>
    have h58 : strings.splitFirstL ':'.toNat (host ++ url.portText (some p)) =
        some (host, ':'.toNat :: p) := by
      apply splitFirstL_append
      intro h
      have := (isHostNameByte_iff _).mp (List.all_eq_true.mp hhost _ h)
      simp at this
    rw [h58]
    simp only [url.validOptionalPort, beq_self_eq_true, hport p rfl, Bool.and_self,
      Bool.not_true, Bool.false_eq_true, ↓reduceIte]
    exact unescape_authority host (some p) hhost hport

theorem parseAuthority_plain (host : GoString) (port : Option GoString)
    (hhost : host.all url.isHostNameByte = true)
    (hport : ∀ p, port = some p → p.all ascii.isDigit = true) :
    url.parseAuthority (host ++ url.portText port) = .ok (host ++ url.portText port) := by
  have hb := authority_bytes host port hhost hport
  have hat : strings.splitLastL '@'.toNat (host ++ url.portText port) = none :=
    splitLastL_none _ _ (fun h => by have := hb _ h; simp at this)
  unfold url.parseAuthority
  rw [hat]
  exact parseHost_plain host port hhost hport

theorem splitHostPortHost_plain (host : GoString) (port : Option GoString)
    (hhost : host.all url.isHostNameByte = true)
    (hport : ∀ p, port = some p → p.all ascii.isDigit = true) :
    url.splitHostPortHost (host ++ url.portText port) = host := by
  have hnb : strings.HasPrefixL host [91] = false := by
    cases host with
    | nil => rfl
    | cons c l =>
      have := (isHostNameByte_iff c).mp (List.all_eq_true.mp hhost c (List.mem_cons_self _ _))
      have hc : c ≠ 91 := by omega
      simp [strings.HasPrefixL, hc]
  unfold url.splitHostPortHost
  cases port with
  | none =>
    have h58 : strings.splitLastL ':'.toNat (host ++ url.portText none) = none := by
      apply splitLastL_none
      intro h
      simp only [url.portText, List.append_nil] at h
      have := (isHostNameByte_iff _).mp (List.all_eq_true.mp hhost _ h)
      simp at this
    rw [h58]
    simp [url.portText, hnb]
  | some p =>
    have h58 : strings.splitLastL ':'.toNat (host ++ url.portText (some p)) =
        some (host, ':'.toNat :: p) := by
      apply splitLastL_append
      intro h
      have := (isDigit_iff _).mp (List.all_eq_true.mp (hport p rfl) _ h)
      simp at this
    rw [h58]
    simp [url.validOptionalPort, hport p rfl, hnb]

theorem getSchemeFrom_letters : ∀ (s2 pre rest : GoString),
    (∀ c ∈ s2, ascii.isAlpha c = true) → 0 < pre.length + s2.length →
    url.getSchemeFrom (pre ++ s2 ++ ':'.toNat :: rest) pre.length (s2 ++ ':'.toNat :: rest) =
      .ok (pre ++ s2, rest)
  | [], pre, rest, _, hlen => by
    have hp : pre.length ≠ 0 := by
      simp only [List.length_nil, Nat.add_zero] at hlen
      omega
    simp [url.getSchemeFrom, ascii.isAlpha, ascii.isDigit, hp]
  | c :: s2, pre, rest, h, _ => by
    have hc := h c (List.mem_cons_self _ _)
    have ih := getSchemeFrom_letters s2 (pre ++ [c]) rest
      (fun x hx => h x (List.mem_cons_of_mem _ hx)) (by simp)
    simp only [List.append_assoc, List.singleton_append, List.length_append,
      List.length_singleton] at ih
    simp only [List.cons_append, url.getSchemeFrom, hc, ↓reduceIte, List.append_assoc]
    exact ih

theorem getScheme_letters (scheme rest : GoString) (hne : scheme ≠ [])
    (h : scheme.all ascii.isAlpha = true) :
    url.getScheme (scheme ++ ':'.toNat :: rest) = .ok (scheme, rest) := by
  have := getSchemeFrom_letters scheme [] rest (fun c hc => List.all_eq_true.mp h c hc)
    (by
      cases scheme with
      | nil => exact absurd rfl hne
      | cons c l => simp)
  simpa [url.getScheme] using this

theorem parseRest_plain (sch q t0 host : GoString) (port : Option GoString)
    (hsch : sch ≠ [])
    (hhost : host.all url.isHostNameByte = true)
    (hport : ∀ p, port = some p → p.all ascii.isDigit = true)
    (ht0 : ∀ c ∈ t0, c ≠ 37) (hhead : ∀ c, t0.head? = some c → c = 47) :
    url.parseRest sch ('/'.toNat :: '/'.toNat :: (host ++ url.portText port) ++ t0) q =
      .ok ⟨sch, [], host ++ url.portText port, t0, q, []⟩ := by
  have hb := authority_bytes host port hhost hport
  have hspan : ((host ++ url.portText port) ++ t0).span (· != '/'.toNat) =
      (host ++ url.portText port, t0) := by
    apply span_append
    · intro c hc
      have := hb c hc
      have h47 : c ≠ 47 := by omega
      simp [h47]
    · intro c hc
      simp [hhead c hc]
  have hempty : sch.isEmpty = false := by
    cases sch with
    | nil => exact absurd rfl hsch
    | cons c l => rfl
  have hdrop : List.drop 2 ('/'.toNat :: '/'.toNat :: (host ++ url.portText port) ++ t0) =
      (host ++ url.portText port) ++ t0 := rfl
  unfold url.parseRest
  rw [hdrop, hspan]
  simp only [strings.HasPrefixL, beq_self_eq_true, Bool.and_self, Bool.not_true,
    Bool.false_and, Bool.false_eq_true, ↓reduceIte, hempty, Bool.not_false, Bool.true_or,
    Bool.and_true, List.cons_append,
    parseAuthority_plain host port hhost hport,
    unescape_plain url.encoding.encodePath t0 (fun c hc => ⟨ht0 c hc, fun h => by
      rcases h with h | h <;> cases h⟩)]

theorem parseNoFragment_plain (scheme host t1 : GoString) (port : Option GoString)
    (hne : scheme ≠ []) (hscheme : scheme.all ascii.isAlpha = true)
    (hhost : host.all url.isHostNameByte = true)
    (hport : ∀ p, port = some p → p.all ascii.isDigit = true)
    (ht1 : ∀ c ∈ t1, url.isPlainTailByte c = true)
    (hhead : ∀ c, t1.head? = some c → c = 47 ∨ c = 63) :
    ∃ q, url.parseNoFragment
        (scheme ++ ':'.toNat :: '/'.toNat :: '/'.toNat :: ((host ++ url.portText port) ++ t1)) =
      .ok ⟨url.toLower scheme, [], host ++ url.portText port, (strings.CutL '?'.toNat t1).1, q,
        []⟩ := by
  have hb := authority_bytes host port hhost hport
  have hctl : url.stringContainsCTLByte
      (scheme ++ ':'.toNat :: '/'.toNat :: '/'.toNat :: ((host ++ url.portText port) ++ t1)) =
      false := by
    unfold url.stringContainsCTLByte
    rw [List.any_eq_false]
    intro c hc
    simp only [List.mem_append, List.mem_cons] at hc
    have hgoal : 32 ≤ c ∧ c ≠ 127 := by
      rcases hc with h | h | h | h | h | h
      · have := (isAlpha_iff c).mp (List.all_eq_true.mp hscheme c h)
        omega
      · subst h; decide
      · subst h; decide
      · subst h; decide
      · have := hb c (List.mem_append.mpr h)
        omega
      · have := ht1 c h
        simp only [url.isPlainTailByte, Bool.and_eq_true, Bool.not_eq_true', Bool.or_eq_false_iff,
          decide_eq_false_iff_not, beq_eq_false_iff_ne] at this
        omega
    simp only [Bool.or_eq_true, decide_eq_true_eq, beq_iff_eq, not_or]
    omega
  have hstar : (scheme ++ ':'.toNat :: '/'.toNat :: '/'.toNat ::
      ((host ++ url.portText port) ++ t1) == ['*'.toNat]) = false := by
    rw [beq_eq_false_iff_ne]
    intro h
    have := congrArg List.length h
    simp only [List.length_append, List.length_cons, List.length_nil] at this
    omega
  have h63 : '?'.toNat ∉ '/'.toNat :: '/'.toNat :: (host ++ url.portText port) := by
    intro h
    rcases List.mem_cons.mp h with h | h
    · revert h; decide
    · rcases List.mem_cons.mp h with h | h
      · revert h; decide
      · have := hb _ h
        simp at this
  have hcut : strings.CutL '?'.toNat
      ('/'.toNat :: '/'.toNat :: ((host ++ url.portText port) ++ t1)) =
      ('/'.toNat :: '/'.toNat :: (host ++ url.portText port) ++ (strings.CutL '?'.toNat t1).1,
        (strings.CutL '?'.toNat t1).2) :=
    CutL_append '?'.toNat ('/'.toNat :: '/'.toNat :: (host ++ url.portText port)) t1 h63
  have hlow : url.toLower scheme ≠ [] := by
    cases scheme with
    | nil => exact absurd rfl hne
    | cons c l => simp [url.toLower]
  have ht0 : ∀ c ∈ (strings.CutL '?'.toNat t1).1, c ≠ 37 := by
    intro c hc
    have := ht1 c (CutL_fst_subset _ t1 c hc).1
    simp only [url.isPlainTailByte, Bool.and_eq_true, bne_iff_ne, ne_eq] at this
    exact this.2
  have hhead0 : ∀ c, (strings.CutL '?'.toNat t1).1.head? = some c → c = 47 := by
    intro c hc
    rcases CutL_fst_head '?'.toNat t1 with h | ⟨x, rest, hx, hne63, heq⟩
    · rw [h] at hc; cases hc
    · rw [heq] at hc
      simp only [List.head?_cons, Option.some.injEq] at hc
      subst hc
      rcases hhead x hx with h | h
      · exact h
      · exact absurd h hne63
  have hrest := fun q => parseRest_plain (url.toLower scheme) q (strings.CutL '?'.toNat t1).1
    host port hlow hhost hport ht0 hhead0
  unfold url.parseNoFragment
  rw [hctl, hstar, getScheme_letters scheme _ hne hscheme]
  simp only [Bool.false_eq_true, ↓reduceIte]
  split
  · rename_i hq
    simp only [Bool.and_eq_true, beq_iff_eq] at hq
    rw [dropLast_eq_CutL '?'.toNat _ hq.1 hq.2, hcut]
    exact ⟨[], hrest []⟩
  · rw [hcut]
    exact ⟨_, hrest _⟩

/-- A URL `scheme://host[:port]tail` with a plain host name parses, and the `Host` of the
parsed URL is `host[:port]`. -/
theorem Parse_plain (scheme host tail : GoString) (port : Option GoString)
    (hne : scheme ≠ []) (hscheme : scheme.all ascii.isAlpha = true)
    (hhost : host.all url.isHostNameByte = true)
    (hport : ∀ p, port = some p → p.all ascii.isDigit = true)
    (htail : tail.all url.isPlainTailByte = true) (hstart : url.startsTail tail = true) :
    ∃ u, url.Parse (scheme ++ bytes "://" ++ host ++ url.portText port ++ tail) = .ok u ∧
      u.Host = host ++ url.portText port := by
  have hb := authority_bytes host port hhost hport
  have hshape : scheme ++ bytes "://" ++ host ++ url.portText port ++ tail =
      (scheme ++ ':'.toNat :: '/'.toNat :: '/'.toNat :: (host ++ url.portText port)) ++ tail := by
    have : bytes "://" = [':'.toNat, '/'.toNat, '/'.toNat] := by decide
    rw [this]
    simp [List.append_assoc]
  have h35 : '#'.toNat ∉
      scheme ++ ':'.toNat :: '/'.toNat :: '/'.toNat :: (host ++ url.portText port) := by
    intro h
    simp only [List.mem_append, List.mem_cons] at h
    rcases h with h | h | h | h | h
    · have := (isAlpha_iff _).mp (List.all_eq_true.mp hscheme _ h)
      simp at this
    · revert h; decide
    · revert h; decide
    · revert h; decide
    · have := hb _ (List.mem_append.mpr h)
      simp at this
  have hcut := CutL_append '#'.toNat _ tail h35
  have ht1 : ∀ c ∈ (strings.CutL '#'.toNat tail).1, url.isPlainTailByte c = true :=
    fun c hc => List.all_eq_true.mp htail c (CutL_fst_subset _ tail c hc).1
  have hhead : ∀ c, (strings.CutL '#'.toNat tail).1.head? = some c → c = 47 ∨ c = 63 := by
    intro c hc
    rcases CutL_fst_head '#'.toNat tail with h | ⟨x, rest, hx, hne35, heq⟩
    · rw [h] at hc; cases hc
    · rw [heq] at hc
      simp only [List.head?_cons, Option.some.injEq] at hc
      subst hc
      cases tail with
      | nil => cases hx
      | cons y l =>
        simp only [List.head?_cons, Option.some.injEq] at hx
        subst hx
        simp only [url.startsTail, Bool.or_eq_true, beq_iff_eq] at hstart
        rcases hstart with (h | h) | h
        · left; exact h
        · right; exact h
        · exact absurd h hne35
  obtain ⟨q, hq⟩ := parseNoFragment_plain scheme host (strings.CutL '#'.toNat tail).1 port hne
    hscheme hhost hport ht1 hhead
  have hpre : (scheme ++ ':'.toNat :: '/'.toNat :: '/'.toNat :: (host ++ url.portText port)) ++
      (strings.CutL '#'.toNat tail).1 =
      scheme ++ ':'.toNat :: '/'.toNat :: '/'.toNat ::
        ((host ++ url.portText port) ++ (strings.CutL '#'.toNat tail).1) := by
    simp [List.append_assoc]
  rw [hshape]
  unfold url.Parse
  rw [hcut]
  simp only
  rw [hpre, hq]
  simp only
  split
  · exact ⟨_, rfl, rfl⟩
  · have hf : url.unescape .encodeFragment (strings.CutL '#'.toNat tail).2 =
        .ok (strings.CutL '#'.toNat tail).2 := by
      apply unescape_plain
      intro c hc
      have := List.all_eq_true.mp htail c (CutL_snd_subset _ tail c hc)
      simp only [url.isPlainTailByte, Bool.and_eq_true, bne_iff_ne, ne_eq] at this
      exact ⟨this.2, fun h => by rcases h with h | h <;> cases h⟩
    rw [hf]
    exact ⟨_, rfl, rfl⟩

/-- What `parseHNItem` computes, in one equation. -/
theorem parseHNItem_eq (raw : hn.Item) :
    parseHNItem raw =
      match url.Parse (bytes raw.URL) with
      | .ok u => { Item := raw, Host := strings.TrimPrefixL u.Hostname (bytes "www.") }
      | .error _ => { Item := raw, Host := [] } := by
  unfold parseHNItem
  dsimp only

theorem TrimPrefixL_www (h : GoString) :
    strings.TrimPrefixL h (bytes "www.") =
      if (bytes "www.").isPrefixOf h then h.drop 4 else h := by
  unfold strings.TrimPrefixL
  rw [HasPrefixL_eq_isPrefixOf]
  rfl

/-! ## The claims -/

/-- C1: in the scenario of the specification (n = 5, all stories with URLs, only the fetch
of rank 3 fails) the arrival order 0, 1, 2, 3, 3 is possible: the task of rank 3 sends its
error result and then a second result, the coordinator stops after five receives, and the
result of rank 4 is never received.  The call returns the items of ranks 0, 1, 2 only (and,
when the failed fetch had decoded its item, the items of ranks 0, 1, 2, 3), where the
specification describes the items of ranks 0, 1, 2, 4. -/
theorem scenario_loses_rank_4 :
    (getTopStories scenarioClient 5 [0, 1, 2, 3, 3]).outcome =
        .returned [parseHNItem (storyOf 10), parseHNItem (storyOf 11),
          parseHNItem (storyOf 12)] none ∧
      expectedStories scenarioClient scenarioClient.TopItems.1 5 =
        [parseHNItem (storyOf 10), parseHNItem (storyOf 11), parseHNItem (storyOf 12),
          parseHNItem (storyOf 14)] ∧
      (getTopStories scenarioClient 5 [0, 1, 2, 3, 3]).stories.length = 3 ∧
      (getTopStories scenarioClientDecoded 5 [0, 1, 2, 3, 3]).outcome =
        .returned [parseHNItem (storyOf 10), parseHNItem (storyOf 11),
          parseHNItem (storyOf 12), parseHNItem (storyOf 13)] none ∧
      expectedStories scenarioClientDecoded scenarioClientDecoded.TopItems.1 5 =
        [parseHNItem (storyOf 10), parseHNItem (storyOf 11), parseHNItem (storyOf 12),
          parseHNItem (storyOf 14)] := by
  decide

/-- C2: when the `TopItems` call returns an error, `getTopStories` returns no items and the
error "Failed to load top stories", for every `numStories` and arrival order, and the
coordinator has neither read an element of the ID list nor launched a fetch. -/
theorem topItems_error_returns_nothing (client : hn.Client) (numStories : Int)
    (sched : List Nat) (h : client.TopItems.2 ≠ none) :
    (getTopStories client numStories sched).outcome =
        .returned [] (some "Failed to load top stories") ∧
      (getTopStories client numStories sched).events = [] ∧
      (getTopStories client numStories sched).collected = [] := by
  have h2 : client.TopItems.2.isSome = true := by
    cases h3 : client.TopItems.2 with
    | none => exact absurd h3 h
    | some e => rfl
  rw [getTopStories_of_listError client numStories sched h2]
  exact ⟨rfl, rfl, rfl⟩

theorem topItems_error_returns_nothing_witness :
    downClient.TopItems.2 ≠ none ∧
      (getTopStories downClient 5 [0, 1, 2, 3, 4]).outcome =
        .returned [] (some "Failed to load top stories") ∧
      (getTopStories downClient 5 [0, 1, 2, 3, 4]).events = [] ∧
      (getTopStories downClient 5 [0, 1, 2, 3, 4]).collected = [] :=
  ⟨by decide, topItems_error_returns_nothing downClient 5 [0, 1, 2, 3, 4] (by decide)⟩

/-- C3: the fetch of rank 0 fails and `GetItem` returns a story with a URL next to the
error; with the arrival order 0, 0 the call returns a nil error and an output that holds the
item built from that failed fetch. -/
theorem failed_fetch_item_in_output :
    (partialDecodeClient.GetItem 0 10).2 = some "json: cannot unmarshal" ∧
      (getTopStories partialDecodeClient 2 [0, 0]).outcome =
        .returned [parseHNItem (partialDecodeClient.GetItem 0 10).1] none ∧
      keptRanks (getTopStories partialDecodeClient 2 [0, 0]) = [0] := by
  decide

/-- C4: `isStoryLink` holds exactly for the items whose type is "story" and whose URL is not
empty; an item of type "job" is rejected whatever its URL, an item with an empty URL is
rejected whatever its type, and every item that `getTopStories` returns satisfies
`isStoryLink`. -/
theorem isStoryLink_iff_and_output (it : item) (client : hn.Client) (numStories : Int)
    (sched : List Nat) :
    (isStoryLink it = true ↔ (it.Item.Type_ = "story" ∧ it.Item.URL ≠ "")) ∧
      isStoryLink { it with Item := { it.Item with Type_ := "job" } } = false ∧
      isStoryLink { it with Item := { it.Item with Type_ := "story", URL := "" } } = false ∧
      isStoryLink { it with Item := { it.Item with URL := "" } } = false ∧
      (getTopStories client numStories sched).stories.all isStoryLink = true := by
  refine ⟨?_, ?_, ?_, ?_, stories_all_isStoryLink client numStories sched⟩
  · simp [isStoryLink]
  · simp [isStoryLink]
  · simp [isStoryLink]
  · simp [isStoryLink]

/-- C5: the same service answers, two arrival orders, two different outputs. -/
theorem arrival_order_changes_output :
    (getTopStories scenarioClient 5 [0, 1, 2, 3, 4]).outcome =
        .returned [parseHNItem (storyOf 10), parseHNItem (storyOf 11),
          parseHNItem (storyOf 12), parseHNItem (storyOf 14)] none ∧
      (getTopStories scenarioClient 5 [3, 3, 0, 1, 2]).outcome =
        .returned [parseHNItem (storyOf 10), parseHNItem (storyOf 11),
          parseHNItem (storyOf 12)] none ∧
      (getTopStories scenarioClient 5 [0, 1, 2, 3, 4]).stories ≠
        (getTopStories scenarioClient 5 [3, 3, 0, 1, 2]).stories := by
  decide

/-- C6: with an empty ID list and `numStories = 1` the launch loop reads `ids[0]`, which is
out of range, and the call panics. -/
theorem read_past_end_of_ids :
    emptyListClient.TopItems.1.length = 0 ∧
      getTopStories emptyListClient 1 [0] =
        { events := [Event.readID 0], collected := [], outcome := .panicked } := by
  decide

/-- C7: for `n ≤ len(ids)`, whatever the `GetItem` calls return and in whatever order the
results arrive, the ranks of the returned items are strictly increasing and below `n`; so
they form a subsequence of `0 .. n-1` without repetition, the output holds at most `n` items,
and every returned item is the enriched item that the fetch of its rank (one of the first `n`
IDs) delivered. -/
theorem output_ranks_strictly_increasing (client : hn.Client) (n : Nat) (sched : List Nat)
    (hn : n ≤ client.TopItems.1.length) :
    (keptRanks (getTopStories client (n : Int) sched)).Pairwise (· < ·) ∧
      (keptRanks (getTopStories client (n : Int) sched)).all (· < n) = true ∧
      (keptRanks (getTopStories client (n : Int) sched)).Sublist (List.range n) ∧
      (keptRanks (getTopStories client (n : Int) sched)).Nodup ∧
      (getTopStories client (n : Int) sched).stories.length ≤ n ∧
      (getTopStories client (n : Int) sched).stories =
        (keptRanks (getTopStories client (n : Int) sched)).map fun j =>
          parseHNItem (client.GetItem j (client.TopItems.1.getD j 0)).1 := by
  obtain ⟨hnd, hmem⟩ := collected_facts client n sched hn
  rw [stories_eq_reduce, reduce_eq_map_keep]
  unfold keptRanks
  generalize (getTopStories client (n : Int) sched).collected = rs at hnd hmem ⊢
  have hperm := sortSlice_perm rs
  have hstrict : ((keep (sortSlice rs)).map (·.index)).Pairwise (· < ·) :=
    keep_ranks_strict _ (sortSlice_sorted rs) ((okRanks_perm hperm).nodup_iff.mpr hnd)
  have hbound : ∀ j ∈ (keep (sortSlice rs)).map (·.index), j < n := by
    intro j hj
    obtain ⟨m, hm, rfl⟩ := List.mem_map.mp hj
    rw [keep_eq_filter] at hm
    exact (hmem m (hperm.subset (List.mem_filter.mp hm).1)).1
  have hsub := strict_lt_sublist_range _ n hstrict hbound
  refine ⟨hstrict, ?_, hsub, hstrict.imp (fun h => Nat.ne_of_lt h), ?_, ?_⟩
  · rw [List.all_eq_true]
    intro j hj
    exact decide_eq_true (hbound j hj)
  · have := hsub.length_le
    simpa using this
  · exact keep_item_of_received client client.TopItems.1 _
      (fun m hm => (hmem m (hperm.subset hm)).2)

theorem output_ranks_strictly_increasing_witness :
    (keptRanks (getTopStories scenarioClient ((5 : Nat) : Int) [4, 3, 3, 0, 1])).Pairwise (· < ·) ∧
      (keptRanks (getTopStories scenarioClient ((5 : Nat) : Int) [4, 3, 3, 0, 1])).all (· < 5) = true ∧
      (keptRanks (getTopStories scenarioClient ((5 : Nat) : Int) [4, 3, 3, 0, 1])).Sublist
        (List.range 5) ∧
      (keptRanks (getTopStories scenarioClient ((5 : Nat) : Int) [4, 3, 3, 0, 1])).Nodup ∧
      (getTopStories scenarioClient ((5 : Nat) : Int) [4, 3, 3, 0, 1]).stories.length ≤ 5 ∧
      (getTopStories scenarioClient ((5 : Nat) : Int) [4, 3, 3, 0, 1]).stories =
        (keptRanks (getTopStories scenarioClient ((5 : Nat) : Int) [4, 3, 3, 0, 1])).map fun j =>
          parseHNItem (scenarioClient.GetItem j (scenarioClient.TopItems.1.getD j 0)).1 :=
  output_ranks_strictly_increasing scenarioClient 5 [4, 3, 3, 0, 1] (by decide)

/-- C8: `parseHNItem` is total; the item it returns embeds the raw item unchanged; its `Host`
is, when the URL parses, `Hostname()` of the parsed URL without one leading "www." (only the
first is removed), and empty when the URL does not parse.  For every URL of the form
`scheme://host[:port]tail` (letters; a host name of letters, digits, `-`, `.` and bytes
outside ASCII; an optional port of digits; a tail that is empty or starts with `/`, `?` or
`#` and holds no control byte and no `%`) the URL parses and `Host` is `host` without one
leading "www.": the port, the path, the query and the fragment are cut off.  An empty URL
gives the empty `Host`; `https://www.example.com/x` gives `example.com`;
`https://sub.example.com` gives `sub.example.com`; an escaped byte outside ASCII is decoded
to that byte; an IPv6 literal loses its brackets and port; a URL that does not parse (a space
in the host, a name in brackets, a bad escape, a missing scheme) gives the empty `Host`. -/
theorem parseHNItem_host (raw : hn.Item) :
    (parseHNItem raw).Item = raw ∧
      (parseHNItem raw).Host =
        (match url.Parse (bytes raw.URL) with
          | .ok u =>
            if (bytes "www.").isPrefixOf u.Hostname then u.Hostname.drop 4 else u.Hostname
          | .error _ => []) ∧
      (∀ (scheme host tail : GoString) (port : Option GoString),
        scheme ≠ [] → scheme.all ascii.isAlpha = true →
        host.all url.isHostNameByte = true →
        (∀ p, port = some p → p.all ascii.isDigit = true) →
        tail.all url.isPlainTailByte = true → url.startsTail tail = true →
        bytes raw.URL = scheme ++ bytes "://" ++ host ++ url.portText port ++ tail →
        (parseHNItem raw).Host =
          if (bytes "www.").isPrefixOf host then host.drop 4 else host) ∧
      (parseHNItem { raw with URL := "" }).Host = [] ∧
      (parseHNItem { raw with URL := "https://www.example.com/x" }).Host =
        bytes "example.com" ∧
      (parseHNItem { raw with URL := "https://sub.example.com" }).Host =
        bytes "sub.example.com" ∧
      (parseHNItem { raw with URL := "https://www.www.example.com" }).Host =
        bytes "www.example.com" ∧
      (parseHNItem { raw with URL := "http://user@www.example.com:8080/a?b#c" }).Host =
        bytes "example.com" ∧
      (parseHNItem { raw with URL := "https://%C3%A9xample.com/" }).Host =
        bytes "éxample.com" ∧
      (parseHNItem { raw with URL := "http://[::1]:8080/" }).Host = bytes "::1" ∧
      (parseHNItem { raw with URL := "http://[example.com]/" }).Host = [] ∧
      (parseHNItem { raw with URL := "http://a b.com/" }).Host = [] ∧
      (parseHNItem { raw with URL := "http://example.com/%zz" }).Host = [] ∧
      (parseHNItem { raw with URL := "://example.com" }).Host = [] := by
  refine ⟨?_, ?_, ?_, ?_, ?_, ?_, ?_, ?_, ?_, ?_, ?_, ?_, ?_, ?_⟩
  · rw [parseHNItem_eq]
    generalize url.Parse (bytes raw.URL) = r
    cases r <;> rfl
  · rw [parseHNItem_eq]
    generalize url.Parse (bytes raw.URL) = r
    cases r with
    | error e => rfl
    | ok u => exact TrimPrefixL_www u.Hostname
  · intro scheme host tail port hne hscheme hhost hport htail hstart hurl
    obtain ⟨u, hu, hHost⟩ := Parse_plain scheme host tail port hne hscheme hhost hport htail
      hstart
    rw [parseHNItem_eq, hurl, hu]
    simp only [url.URL.Hostname, hHost, splitHostPortHost_plain host port hhost hport]
    exact TrimPrefixL_www host
  · rw [parseHNItem_eq]; rfl
  · rw [parseHNItem_eq]; rfl
  · rw [parseHNItem_eq]; rfl
  · rw [parseHNItem_eq]; rfl
  · rw [parseHNItem_eq]; rfl
  · rw [parseHNItem_eq]; rfl
  · rw [parseHNItem_eq]; rfl
  · rw [parseHNItem_eq]; rfl
  · rw [parseHNItem_eq]; rfl
  · rw [parseHNItem_eq]; rfl
  · rw [parseHNItem_eq]; rfl

theorem parseHNItem_host_witness :
    bytes "https" ≠ [] ∧ (bytes "https").all ascii.isAlpha = true ∧
      (bytes "www.example.com").all url.isHostNameByte = true ∧
      (∀ p, some (bytes "8080") = some p → p.all ascii.isDigit = true) ∧
      (bytes "/a/b?q=1#top").all url.isPlainTailByte = true ∧
      url.startsTail (bytes "/a/b?q=1#top") = true ∧
      bytes portItem.URL =
        bytes "https" ++ bytes "://" ++ bytes "www.example.com" ++
          url.portText (some (bytes "8080")) ++ bytes "/a/b?q=1#top" ∧
      (parseHNItem portItem).Host =
        if (bytes "www.").isPrefixOf (bytes "www.example.com")
        then (bytes "www.example.com").drop 4 else bytes "www.example.com" :=
  ⟨by decide, by decide, by decide, fun p h => by cases h; decide, by decide, by decide,
    by decide,
    (parseHNItem_host portItem).2.2.1 (bytes "https") (bytes "www.example.com")
      (bytes "/a/b?q=1#top") (some (bytes "8080")) (by decide) (by decide) (by decide)
      (fun p h => by cases h; decide) (by decide) (by decide) (by decide)⟩

/-- C9: the task of a failed fetch has two sends, and both can be received: in the scenario
with the arrival order 0, 1, 2, 3, 3 the collected results carry the ranks 0, 1, 2, 3, 3. -/
theorem failed_task_sends_twice :
    (taskSends scenarioClient 3 13).map (·.err) = [some "fetch failed", none] ∧
      (getTopStories scenarioClient 5 [0, 1, 2, 3, 3]).collected.map (·.index) =
        [0, 1, 2, 3, 3] := by
  decide

/-- C10: for `n ≤ len(ids)` and a successful `TopItems`, whatever fetches fail:
the collecting loop can always go on until it has received `n` results (the arrival order
`0, 1, ..., n-1` is possible, and after any `k < n` receives some task has a send pending);
every run that ends has collected exactly `n` results and returns a nil error; and the sorted
slice is a permutation of the collected results with ranks in non-decreasing order. -/
theorem collects_exactly_n_then_sorts (client : hn.Client) (n : Nat)
    (herr : client.TopItems.2 = none) (hn : n ≤ client.TopItems.1.length) :
    (∃ rs, (getTopStories client (n : Int) (List.range n)).outcome =
        .returned (reduce (sortSlice rs)) none ∧
        (getTopStories client (n : Int) (List.range n)).collected = rs ∧ rs.length = n) ∧
      (∀ (k : Nat) (sched : List Nat) (rs : List result), k < n →
        receive k (launched client client.TopItems.1 0 n) sched [] = some rs →
        ∃ j rs', receive (k + 1) (launched client client.TopItems.1 0 n)
          (sched.take k ++ [j]) [] = some rs') ∧
      ∀ sched : List Nat, (getTopStories client (n : Int) sched).outcome ≠ .noSuchRun →
        (getTopStories client (n : Int) sched).collected.length = n ∧
        (getTopStories client (n : Int) sched).outcome =
          .returned (reduce (sortSlice (getTopStories client (n : Int) sched).collected)) none ∧
        (sortSlice (getTopStories client (n : Int) sched).collected).Perm
          (getTopStories client (n : Int) sched).collected ∧
        (sortSlice (getTopStories client (n : Int) sched).collected).Pairwise
          (fun a b => a.index ≤ b.index) := by
  refine ⟨?_, ?_, ?_⟩
  · have hex := receive_in_rank_order n 0 (launched client client.TopItems.1 0 n) []
      (fun j _ h2 => by
        have h3 := launched_get client client.TopItems.1 0 n j (by omega)
        obtain ⟨m, rest, hm⟩ := taskSends_cons client (0 + j) (client.TopItems.1.getD (0 + j) 0)
        exact ⟨m, rest, by rw [h3, hm]⟩)
    obtain ⟨rs, hrs⟩ := hex
    rw [← List.range_eq_range'] at hrs
    rw [getTopStories_of_inRange client n _ herr hn, hrs]
    exact ⟨rs, rfl, rfl, (received_facts client _ n _ rs hrs).1⟩
  · intro k sched rs hk hr
    exact receive_progress k _ sched [] rs hr
      (lt_of_lt_of_le hk (launched_flatten_length client _ 0 n))
  · intro sched hne
    rw [getTopStories_of_inRange client n sched herr hn] at hne ⊢
    cases hr : receive n (launched client client.TopItems.1 0 n) sched [] with
    | none => rw [hr] at hne; exact absurd rfl hne
    | some rs =>
      exact ⟨(received_facts client _ n sched rs hr).1, rfl, sortSlice_perm rs,
        sortSlice_sorted rs⟩

theorem collects_exactly_n_then_sorts_witness :
    scenarioClient.TopItems.2 = none ∧ 5 ≤ scenarioClient.TopItems.1.length ∧
    (∃ rs, (getTopStories scenarioClient ((5 : Nat) : Int) (List.range 5)).outcome =
        .returned (reduce (sortSlice rs)) none ∧
        (getTopStories scenarioClient ((5 : Nat) : Int) (List.range 5)).collected = rs ∧
        rs.length = 5) ∧
      (∀ (k : Nat) (sched : List Nat) (rs : List result), k < 5 →
        receive k (launched scenarioClient scenarioClient.TopItems.1 0 5) sched [] = some rs →
        ∃ j rs', receive (k + 1) (launched scenarioClient scenarioClient.TopItems.1 0 5)
          (sched.take k ++ [j]) [] = some rs') ∧
      ∀ sched : List Nat,
        (getTopStories scenarioClient ((5 : Nat) : Int) sched).outcome ≠ .noSuchRun →
        (getTopStories scenarioClient ((5 : Nat) : Int) sched).collected.length = 5 ∧
        (getTopStories scenarioClient ((5 : Nat) : Int) sched).outcome =
          .returned (reduce (sortSlice
            (getTopStories scenarioClient ((5 : Nat) : Int) sched).collected)) none ∧
        (sortSlice (getTopStories scenarioClient ((5 : Nat) : Int) sched).collected).Perm
          (getTopStories scenarioClient ((5 : Nat) : Int) sched).collected ∧
        (sortSlice (getTopStories scenarioClient ((5 : Nat) : Int) sched).collected).Pairwise
          (fun a b => a.index ≤ b.index) :=
  ⟨by decide, by decide, collects_exactly_n_then_sorts scenarioClient 5 (by decide) (by decide)⟩

end QuietHN
